import Mathlib

/-!
Verification development for the `reorganize_sin.py` VIN-driven document
reorganizer.  Python source constructs are shallowly embedded:

* regexes become values of a small backtracking matcher (`RElem`, `reMatch`)
  whose alternative-ordering reproduces the Python `re` engine on the
  patterns used by the program (greedy `*`, lazy `+?`, character classes,
  word boundaries, lookarounds, anchors);
* `dict`s become association lists preserving insertion order (CPython
  semantics); `set` iteration order, which CPython leaves unspecified, is
  taken as an explicit enumeration parameter constrained to enumerate the
  set's members without duplicates;
* filesystem paths become lists of components; filesystem contents become
  explicit lookup functions;
* mutation becomes explicit state passing.
-/

namespace ReorganizeSin

/-- The Python class `[A-Z0-9]` used by `VIN_PATTERN` (compiled without
`re.IGNORECASE`). -/
def isUpperDigit (c : Char) : Bool := c.isUpper || c.isDigit

/-- Python `\s` (ASCII range, which is all that the program's inputs use). -/
def isWs (c : Char) : Bool :=
  c = ' ' || c = '\t' || c = '\n' || c = '\r' || c = Char.ofNat 11 || c = Char.ofNat 12

/-- Letters of the Romanian diacritic range appearing in the program's
patterns and texts; Python `\w` counts them as word characters. -/
def roLetters : List Char := ['ă', 'â', 'î', 'ș', 'ț', 'ş', 'ţ', 'Ă', 'Â', 'Î', 'Ș', 'Ț', 'Ş', 'Ţ']

/-- Python `\w` (word character) on the alphabet this program works over. -/
def isWordChar (c : Char) : Bool := c.isAlphanum || c = '_' || roLetters.contains c

/-- Membership in an explicit character list (a regex character class). -/
def oneOf (l : List Char) (c : Char) : Bool := l.contains c

/-- Regex elements.  A pattern is a `List RElem`; concatenation is list
concatenation.  `starG` is greedy `*`, `starL` is lazy `*` (so Python
`x+?` is `cls x :: starL x` and `x+` is `cls x :: starG x`), `grp n p` is
a captured `p{n}`, `wb` is `\b`, `nlb`/`nla` are the negative
lookbehind/lookahead, `eos` is `$`. -/
inductive RElem where
  | cls (p : Char → Bool)
  | starG (p : Char → Bool)
  | starL (p : Char → Bool)
  | grp (n : Nat) (p : Char → Bool)
  | wb
  | nlb (p : Char → Bool)
  | nla (p : Char → Bool)
  | eos

/-- Backtracking matcher.  `prev` is the character just before the current
position (for `\b` and lookbehind).  Returns the last capture together with
the number of characters consumed.  Alternatives are tried in the order the
Python `re` engine tries them: a greedy star first consumes, a lazy star
first yields.  `fuel` bounds the recursion; every step shrinks
`elems.length + s.length`, so `elems.length + s.length + 2` suffices. -/
def reMatch : Nat → List RElem → Option Char → List Char → Option (List Char × Nat)
  | 0, _, _, _ => none
  | _ + 1, [], _, _ => some ([], 0)
  | fuel + 1, .cls p :: rest, _, s =>
      match s with
      | [] => none
      | c :: t =>
          if p c then (reMatch fuel rest (some c) t).map (fun (r : List Char × Nat) => (r.1, r.2 + 1)) else none
  | fuel + 1, .starG p :: rest, prev, s =>
      (match s with
       | c :: t =>
           if p c then
             (reMatch fuel (.starG p :: rest) (some c) t).map (fun (r : List Char × Nat) => (r.1, r.2 + 1))
           else none
       | [] => none).orElse (fun _ => reMatch fuel rest prev s)
  | fuel + 1, .starL p :: rest, prev, s =>
      (reMatch fuel rest prev s).orElse (fun _ =>
        match s with
        | c :: t =>
            if p c then
              (reMatch fuel (.starL p :: rest) (some c) t).map (fun (r : List Char × Nat) => (r.1, r.2 + 1))
            else none
        | [] => none)
  | fuel + 1, .grp n p :: rest, prev, s =>
      let taken := s.take n
      if taken.length = n && taken.all p then
        (reMatch fuel rest (if n = 0 then prev else taken.getLast?) (s.drop n)).map
          (fun (r : List Char × Nat) => (taken, r.2 + n))
      else none
  | fuel + 1, .wb :: rest, prev, s =>
      let pw := match prev with | some c => isWordChar c | none => false
      let nw := match s with | c :: _ => isWordChar c | [] => false
      if pw != nw then reMatch fuel rest prev s else none
  | fuel + 1, .nlb p :: rest, prev, s =>
      match prev with
      | some c => if p c then none else reMatch fuel rest prev s
      | none => reMatch fuel rest prev s
  | fuel + 1, .nla p :: rest, prev, s =>
      match s with
      | c :: _ => if p c then none else reMatch fuel rest prev s
      | [] => reMatch fuel rest prev s
  | fuel + 1, .eos :: rest, prev, s =>
      match s with
      | [] => reMatch fuel rest prev s
      | _ => none

/-- Sufficient fuel for `reMatch`. -/
def reFuel (elems : List RElem) (s : List Char) : Nat := elems.length + s.length + 2

/-- Anchored match attempt at the current position. -/
def reMatchTop (elems : List RElem) (prev : Option Char) (s : List Char) :
    Option (List Char × Nat) :=
  reMatch (reFuel elems s) elems prev s

/-- Leftmost search: the offset of the first position where the pattern
matches, scanning left to right as `re.search` does. -/
def reSearchFrom (elems : List RElem) : Option Char → List Char → Nat → Option Nat
  | prev, [], pos => if (reMatchTop elems prev []).isSome then some pos else none
  | prev, c :: t, pos =>
      if (reMatchTop elems prev (c :: t)).isSome then some pos
      else reSearchFrom elems (some c) t (pos + 1)

/-- A compiled pattern: `anchored` records a leading `^` (or use via
`re.match`), which without `re.MULTILINE` pins the match to offset 0. -/
structure RPattern where
  anchored : Bool
  elems : List RElem

/-- Offset of the leftmost match of a pattern, as `re.search` reports it. -/
def patSearchPos (p : RPattern) (s : List Char) : Option Nat :=
  if p.anchored then if (reMatchTop p.elems none s).isSome then some 0 else none
  else reSearchFrom p.elems none s 0

/-- `re.search(...) is not None`. -/
def patSearch (p : RPattern) (s : List Char) : Bool := (patSearchPos p s).isSome

/-- `re.match(pattern, s)` returning `group(1)`. -/
def patMatchCapture (elems : List RElem) (s : List Char) : Option (List Char) :=
  (reMatchTop elems none s).map (fun (r : List Char × Nat) => r.1)

/-- Pair a lowercase Romanian letter with its uppercase form (Python
`re.IGNORECASE` folds these; `Char.toLower`/`toUpper` cover ASCII only). -/
def roCase (c : Char) : Char :=
  match c with
  | 'ă' => 'Ă' | 'â' => 'Â' | 'î' => 'Î' | 'ș' => 'Ș' | 'ț' => 'Ț'
  | 'ş' => 'Ş' | 'ţ' => 'Ţ'
  | 'Ă' => 'ă' | 'Â' => 'â' | 'Î' => 'î' | 'Ș' => 'ș' | 'Ț' => 'ț'
  | 'Ş' => 'ş' | 'Ţ' => 'ţ'
  | _ => c

/-- Case-insensitive single-character class. -/
def ciCls (c : Char) : RElem :=
  .cls (oneOf [c, c.toLower, c.toUpper, roCase c])

/-- Case-insensitive literal string as a regex fragment. -/
def ciStr (s : String) : List RElem := s.data.map ciCls

/-- Case-sensitive literal string as a regex fragment. -/
def csStr (s : String) : List RElem := s.data.map (fun c => .cls (oneOf [c]))

/-- `\s+` (greedy, as written in the program's patterns). -/
def wsPlus : List RElem := [.cls isWs, .starG isWs]

-- ── VIN extraction ───────────────────────────────────────────────────────────

/-- `VIN_PATTERN = re.compile(r'(?<![A-Z0-9])([A-Z0-9]{17})(?![A-Z0-9])')`. -/
def vinElems : List RElem := [.nlb isUpperDigit, .grp 17 isUpperDigit, .nla isUpperDigit]

/-- One scan step of `VIN_PATTERN.findall`: emit the capture and resume
after the end of a (non-empty) match, else advance one character. -/
def vinScanF (recur : Option Char → List Char → List (List Char))
    (prev : Option Char) (s : List Char) : List (List Char) :=
  match reMatchTop vinElems prev s with
  | some r =>
      if r.2 = 0 then
        match s with
        | [] => []
        | c :: t => recur (some c) t
      else r.1 :: recur ((s.take r.2).getLast?) (s.drop r.2)
  | none =>
      match s with
      | [] => []
      | c :: t => recur (some c) t

/-- `VIN_PATTERN.findall`: scan left to right, emit each capture, resume
after the end of each (non-empty) match. -/
def vinScan : Nat → Option Char → List Char → List (List Char)
  | 0, _, _ => []
  | fuel + 1, prev, s => vinScanF (vinScan fuel) prev s

/-- `VIN_PATTERN.findall(s)`. -/
def findAllVins (s : List Char) : List (List Char) := vinScan (s.length + 1) none s

/-- `is_valid_vin`: 17 characters, at least one letter and one digit. -/
def is_valid_vin (v : List Char) : Bool :=
  v.length = 17 && v.any Char.isAlpha && v.any Char.isDigit

/-- `extract_all_vins`: the valid VINs among the pattern's captures. -/
def extract_all_vins (s : List Char) : List (List Char) :=
  (findAllVins s).filter is_valid_vin

example : extract_all_vins "aA1234567890123456".data = ["A1234567890123456".data] := by decide

-- ── Content-category patterns (`_CONTENT_CATEGORY_PATTERNS`) ────────────────

/-- `[tț]` under `re.IGNORECASE`. -/
def clsTT : Char → Bool := oneOf "tTțȚ".data

/-- `[aă]` (or `[AĂ]`) under `re.IGNORECASE`. -/
def clsAA : Char → Bool := oneOf "aAăĂ".data

/-- `[IÎ]` under `re.IGNORECASE`. -/
def clsII : Char → Bool := oneOf "iIîÎ".data

/-- An unanchored pattern. -/
def pat (elems : List RElem) : RPattern := ⟨false, elems⟩

/-- `_CONTENT_CATEGORY_PATTERNS`: category → compiled text patterns, exactly
as listed in the source (note `\bRCA\b` and `\bCIV\b` are compiled without
`re.IGNORECASE`). -/
def contentCategoryPatterns : List (String × List RPattern) :=
  [("Contract Cadru",
     [pat (ciStr "Contract" ++ wsPlus ++ ciStr "Cadru"),
      pat (ciStr "Contract" ++ wsPlus ++ ciStr "de" ++ wsPlus ++ ciStr "Leasing"),
      pat (ciStr "Leasing" ++ wsPlus ++ ciStr "Opera" ++ [.cls clsTT] ++ ciStr "ional")]),
   ("Subcontract",
     [pat (ciStr "Subcontract"),
      pat (ciStr "Act" ++ wsPlus ++ ciStr "Adi" ++ [.cls clsTT] ++ ciStr "ional")]),
   ("CASCO",
     [pat ([.wb] ++ ciStr "CASCO" ++ [.wb]),
      pat (ciStr "FlexiCasco"),
      pat (ciStr "Poli" ++ [.cls clsTT, .cls clsAA] ++ wsPlus ++ ciStr "DT" ++ [.wb])]),
   ("RCA",
     [pat ([.wb] ++ csStr "RCA" ++ [.wb]),
      pat (ciStr "R" ++ [.cls clsAA] ++ ciStr "spundere" ++ wsPlus ++ ciStr "Civil" ++ [.cls clsAA])]),
   ("TALON / CIV",
     [pat ([.wb] ++ ciStr "TALON" ++ [.wb]),
      pat (ciStr "Certificat" ++ wsPlus ++ ciStr "de" ++ wsPlus ++ [.cls clsII] ++ ciStr "nmatricul"),
      pat ([.wb] ++ csStr "CIV" ++ [.wb])]),
   ("Facturi",
     [pat (ciStr "FACTUR" ++ [.cls clsAA]),
      pat (ciStr "Factur" ++ [.cls clsAA] ++ wsPlus ++ ciStr "fiscal" ++ [.cls clsAA]),
      pat (ciStr "Factur" ++ [.cls clsAA] ++ wsPlus ++ ciStr "proform" ++ [.cls clsAA])])]

/-- `_CONTENT_PRIORITY`: fixed priority order for content classification. -/
def CONTENT_PRIORITY : List String :=
  ["Facturi", "TALON / CIV", "Contract Cadru", "Subcontract", "CASCO", "RCA"]

/-- Patterns of one category. -/
def contentPatternsFor (cat : String) : List RPattern :=
  (List.lookup cat contentCategoryPatterns).getD []

/-- Does any pattern of the category match the text? -/
def catMatches (cat : String) (text : List Char) : Bool :=
  (contentPatternsFor cat).any (fun p => patSearch p text)

/-- Classification core of `_scan_pdf_for_category` (the PDF opening, text
extraction and caching around it are I/O and take no part in the category
decision): walk `_CONTENT_PRIORITY` in order and return the first category
one of whose patterns matches anywhere in the text. -/
def scanPdfForCategory (text : List Char) : Option String :=
  CONTENT_PRIORITY.find? (fun cat => catMatches cat text)

/-- Python string comparison `<` (lexicographic on code points). -/
def charListLt : List Char → List Char → Bool
  | [], [] => false
  | [], _ :: _ => true
  | _ :: _, [] => false
  | a :: as, b :: bs =>
      if a.toNat < b.toNat then true
      else if b.toNat < a.toNat then false
      else charListLt as bs

/-- Earliest character offset at which any pattern of the category matches. -/
def catEarliestOffset (cat : String) (text : List Char) : Option Nat :=
  ((contentPatternsFor cat).filterMap (fun p => patSearchPos p text)).min?

/-- Written to the spec's words, for comparison with `scanPdfForCategory`:
select the category whose earliest matching occurrence has the lowest
character offset, ties at identical offset broken by category-name lexical
order. -/
def specFirstPositionCategory (text : List Char) : Option String :=
  let cands := CONTENT_PRIORITY.filterMap
    (fun cat => (catEarliestOffset cat text).map (fun o => (cat, o)))
  (match cands with
   | [] => none
   | x :: xs => some (xs.foldl (fun (b y : String × Nat) =>
       if y.2 < b.2 then y else if b.2 < y.2 then b
       else if charListLt y.1.data b.1.data then y else b) x)).map
    (fun (r : String × Nat) => r.1)

example :
    scanPdfForCategory "CONTRACT CADRU atasata Factura nr 1".data = some "Facturi" := by decide

example :
    specFirstPositionCategory "CONTRACT CADRU atasata Factura nr 1".data
      = some "Contract Cadru" := by decide

example : catMatches "RCA" "polita de răspundere civilă auto".data = true := by decide

example : catMatches "RCA" "text rca text".data = false := by decide

example : scanPdfForCategory "polita de răspundere civilă auto".data = some "RCA" := by decide

-- ── Filename patterns used for parent-VIN election ──────────────────────────

/-- `[A-Z0-9]` under `re.IGNORECASE` (as in `FL_PATTERN`/`SERIEC_PATTERN`). -/
def latinAlnum (c : Char) : Bool := c.isAlpha || c.isDigit

/-- Regex `.` (anything but a newline; `re.DOTALL` is never set). -/
def dotChar (c : Char) : Bool := c != '\n'

/-- `FL_PATTERN = re.compile(r'^FL\s*-\s*.+?\s*-\s*([A-Z0-9]{17}).*\.pdf$', re.IGNORECASE)`. -/
def flElems : List RElem :=
  ciStr "FL" ++ [.starG isWs, .cls (oneOf ['-']), .starG isWs,
                 .cls dotChar, .starL dotChar,
                 .starG isWs, .cls (oneOf ['-']), .starG isWs,
                 .grp 17 latinAlnum, .starG dotChar,
                 .cls (oneOf ['.'])] ++ ciStr "pdf" ++ [.eos]

/-- `SERIEC_PATTERN = re.compile(r'^seriec_([A-Z0-9]{17})_', re.IGNORECASE)`. -/
def seriecElems : List RElem :=
  ciStr "seriec" ++ [.cls (oneOf ['_']), .grp 17 latinAlnum, .cls (oneOf ['_'])]

/-- `re.match(r'^([A-Z0-9]{17})[\s_\-]', fn)` (compiled without flags). -/
def pfx17Elems : List RElem :=
  [.grp 17 isUpperDigit, .cls (fun c => isWs c || c = '_' || c = '-')]

example :
    patMatchCapture flElems "FL - CAR X - BBBBBB98765432109 v2.pdf".data
      = some "BBBBBB98765432109".data := by decide

example :
    patMatchCapture seriecElems "seriec_AAAAAA12345678901_doc.pdf".data
      = some "AAAAAA12345678901".data := by decide

-- ── Paths and directory entries ──────────────────────────────────────────────

/-- `str.lower()` (ASCII, which covers the program's suffix checks). -/
def strLower (s : String) : String := String.mk (s.data.map Char.toLower)

/-- `pathlib.Path(name).suffix`: the extension from the last dot, empty when
there is no dot, the dot is the first character, or the dot is last. -/
def pathSuffix (name : String) : String :=
  let cs := name.data
  let revTail := cs.reverse.takeWhile (fun c => c != '.')
  if 0 < revTail.length ∧ revTail.length + 1 < cs.length then
    String.mk ('.' :: revTail.reverse)
  else ""

example : strLower (pathSuffix "Doc.PDF") = ".pdf" := by decide
example : pathSuffix "nosuffix" = "" := by decide

/-- A directory entry as `folder.iterdir()` yields it. -/
structure FsEntry where
  name : String
  isFile : Bool
deriving DecidableEq

-- ── `get_parent_vin` ─────────────────────────────────────────────────────────

/-- One iteration of `get_parent_vin`'s scan: a direct PDF file joins the
FL pool, else the seriec pool, else (when a valid VIN) the prefix pool. -/
def poolStep (acc : List (List Char) × List (List Char) × List (List Char))
    (item : FsEntry) : List (List Char) × List (List Char) × List (List Char) :=
  if !item.isFile || strLower (pathSuffix item.name) != ".pdf" then acc
  else
    let fn := item.name.data
    match patMatchCapture flElems fn with
    | some v => (acc.1 ++ [v], acc.2.1, acc.2.2)
    | none =>
      match patMatchCapture seriecElems fn with
      | some v => (acc.1, acc.2.1 ++ [v], acc.2.2)
      | none =>
        match patMatchCapture pfx17Elems fn with
        | some v => if is_valid_vin v then (acc.1, acc.2.1, acc.2.2 ++ [v]) else acc
        | none => acc

/-- The three pools built by `get_parent_vin`'s scan over the folder's direct
PDF files: FL matches, then seriec matches, then valid-VIN prefix matches;
each file lands in at most one pool, tried in that order. -/
def getParentVinPools (entries : List FsEntry) :
    List (List Char) × List (List Char) × List (List Char) :=
  entries.foldl poolStep ([], [], [])

/-- Python `max(iterable, key=key)`: first element attaining the maximum. -/
def pyMaxBy {α : Type} (key : α → Nat) : List α → Option α
  | [] => none
  | x :: xs => some (xs.foldl (fun b y => if key y > key b then y else b) x)

/-- `max(set(pool), key=pool.count)`, with `setEnum` standing for CPython's
unspecified set iteration order. -/
def pickMode (setEnum : List (List Char) → List (List Char)) (pool : List (List Char)) :
    Option (List Char) :=
  pyMaxBy (fun v => pool.count v) (setEnum pool)

/-- `get_parent_vin`: mode of the first non-empty pool. -/
def get_parent_vin (setEnum : List (List Char) → List (List Char))
    (entries : List FsEntry) : Option (List Char) :=
  let pools := getParentVinPools entries
  if pools.1 ≠ [] then pickMode setEnum pools.1
  else if pools.2.1 ≠ [] then pickMode setEnum pools.2.1
  else if pools.2.2 ≠ [] then pickMode setEnum pools.2.2
  else none

/-- `sorted(names)[0]` (on a non-empty list; `""` stands for the
`IndexError` case that `plan_multi_car` never reaches). -/
def sortedHead : List String → String
  | [] => ""
  | x :: xs => xs.foldl (fun b y => if charListLt y.data b.data then y else b) x

/-- Parent-VIN choice of `plan_multi_car`: `get_parent_vin`, falling back to
the lexicographically first VIN-named subdirectory. -/
def multiCarParentVin (setEnum : List (List Char) → List (List Char))
    (entries : List FsEntry) (vinSubdirNames : List String) : String :=
  match get_parent_vin setEnum entries with
  | some v => String.mk v
  | none => sortedHead vinSubdirNames

/-- A valid model of CPython set iteration: each member listed exactly once. -/
def IsSetEnum (setEnum : List (List Char) → List (List Char)) : Prop :=
  ∀ l, (setEnum l).Nodup ∧ ∀ x, x ∈ setEnum l ↔ x ∈ l

/-- Written to the claim's words, for comparison with `poolStep`: every
direct file's name is scanned, with no restriction to `.pdf` files (the
program additionally skips files whose suffix is not `.pdf`). -/
def specPoolStepAllFiles (acc : List (List Char) × List (List Char) × List (List Char))
    (item : FsEntry) : List (List Char) × List (List Char) × List (List Char) :=
  if !item.isFile then acc
  else
    let fn := item.name.data
    match patMatchCapture flElems fn with
    | some v => (acc.1 ++ [v], acc.2.1, acc.2.2)
    | none =>
      match patMatchCapture seriecElems fn with
      | some v => (acc.1, acc.2.1 ++ [v], acc.2.2)
      | none =>
        match patMatchCapture pfx17Elems fn with
        | some v => if is_valid_vin v then (acc.1, acc.2.1, acc.2.2 ++ [v]) else acc
        | none => acc

/-- The three pools per the claim's words (all direct files contribute). -/
def specParentVinPoolsAllFiles (entries : List FsEntry) :
    List (List Char) × List (List Char) × List (List Char) :=
  entries.foldl specPoolStepAllFiles ([], [], [])

/-- Parent-VIN election per the claim's words (no `.pdf` restriction). -/
def specGetParentVinAllFiles (setEnum : List (List Char) → List (List Char))
    (entries : List FsEntry) : Option (List Char) :=
  let pools := specParentVinPoolsAllFiles entries
  if pools.1 ≠ [] then pickMode setEnum pools.1
  else if pools.2.1 ≠ [] then pickMode setEnum pools.2.1
  else if pools.2.2 ≠ [] then pickMode setEnum pools.2.2
  else none

/-- `plan_multi_car`'s parent-VIN choice per the claim's words. -/
def specMultiCarParentVinAllFiles (setEnum : List (List Char) → List (List Char))
    (entries : List FsEntry) (vinSubdirNames : List String) : String :=
  match specGetParentVinAllFiles setEnum entries with
  | some v => String.mk v
  | none => sortedHead vinSubdirNames

-- ── Strategy C keeper election (`plan_flat`, no-parent-VIN branch) ──────────

/-- Ordered association-list lookup (first match), mirroring a CPython dict
with unique keys. -/
def alook {α β : Type} [DecidableEq α] (k : α) : List (α × β) → Option β
  | [] => none
  | p :: rest => if p.1 = k then some p.2 else alook k rest

/-- CPython `d[k] = v`: replace in place when the key exists, else append. -/
def aset {α β : Type} [DecidableEq α] (m : List (α × β)) (k : α) (v : β) : List (α × β) :=
  if (alook k m).isSome then m.map (fun p => if p.1 = k then (p.1, v) else p)
  else m ++ [(k, v)]

/-- One step of `vin_counts[v] += 1` on an insertion-ordered association
list (CPython dict semantics). -/
def bumpCount (m : List (List Char × Nat)) (v : List Char) : List (List Char × Nat) :=
  if (alook v m).isSome then
    m.map (fun p => if p.1 = v then (p.1, p.2 + 1) else p)
  else m ++ [(v, 1)]

/-- `vin_counts` built from `file_fn_vins.values()` in file order; per file
the VINs come from `set(extract_all_vins(name))`, iterated via `setEnum`. -/
def flatVinCounts (setEnum : List (List Char) → List (List Char))
    (files : List String) : List (List Char × Nat) :=
  files.foldl (fun m fn => (setEnum (extract_all_vins fn.data)).foldl bumpCount m) []

/-- `max(vin_counts, key=vin_counts.get)` on a non-empty count map: the
keeper elected by `plan_flat` when the parent-VIN rule does not apply and
some VIN occurs in filenames. -/
def flatElectKeeper (setEnum : List (List Char) → List (List Char))
    (files : List String) : Option (List Char) :=
  let counts := flatVinCounts setEnum files
  pyMaxBy (fun v => (alook v counts).getD 0) (counts.map Prod.fst)

/-- Written to the claim's words, for comparison with `flatElectKeeper`:
maximum count across filenames, ties broken lexicographically (smallest
VIN among those with maximal count). -/
def specFlatKeeperLex (setEnum : List (List Char) → List (List Char))
    (files : List String) : Option (List Char) :=
  let counts := flatVinCounts setEnum files
  match counts with
  | [] => none
  | x :: xs => some (xs.foldl (fun (b y : List Char × Nat) =>
      if y.2 > b.2 then y else if b.2 > y.2 then b
      else if charListLt y.1 b.1 then y else b) x).1

example :
    flatElectKeeper List.dedup ["B1234567890123456.pdf", "A1234567890123456.pdf"]
      = some "B1234567890123456".data := by decide

example :
    specFlatKeeperLex List.dedup ["B1234567890123456.pdf", "A1234567890123456.pdf"]
      = some "A1234567890123456".data := by decide

-- ── Paths, the change ledger (`Ledger`) ─────────────────────────────────────

/-- A filesystem path as its list of components (`str(path)` is injective on
the paths the program builds, so components serve as dictionary keys). -/
abbrev Pathm := List String

/-- `path.name`: the final component. -/
def pathmName (p : Pathm) : String := p.getLastD ""

/-- `path.parent`. -/
def pathmParent (p : Pathm) : Pathm := p.dropLast

/-- `path.stem`: name without the suffix. -/
def nameStem (name : String) : String :=
  String.mk (name.data.take (name.data.length - (pathSuffix name).data.length))

/-- A ledger entry (`@dataclass Change`). -/
structure Change where
  action : String
  source : Pathm
  destination : Pathm
  reason : String := ""
  parent_folder : String := ""
  vin : String := ""
  status : String := "planned"
deriving DecidableEq

instance : Inhabited Change := ⟨⟨"", [], [], "", "", "", "planned"⟩⟩

/-- The change ledger.  `pdf_scans` (a pure log) is omitted; `plannedDests`
is the planned-destination index `_planned_dests`. -/
structure Ledger where
  changes : List Change
  warnings : List String
  plannedDests : List (Pathm × Pathm)
deriving DecidableEq

/-- `Ledger()`. -/
def Ledger.empty : Ledger := ⟨[], [], []⟩

/-- `Ledger.add`: for `copy_file`, a destination already planned from the
same source is silently dropped; otherwise the index entry for the
destination is overwritten with the new source and the change is appended. -/
def Ledger.add (l : Ledger) (action : String) (source destination : Pathm)
    (reason : String := "") (parent_folder : String := "") (vin : String := "") : Ledger :=
  let c : Change := ⟨action, source, destination, reason, parent_folder, vin, "planned"⟩
  if action = "copy_file" then
    match alook destination l.plannedDests with
    | some src =>
        if src = source then l
        else { l with plannedDests := aset l.plannedDests destination source,
                      changes := l.changes ++ [c] }
    | none =>
        { l with plannedDests := aset l.plannedDests destination source,
                 changes := l.changes ++ [c] }
  else { l with changes := l.changes ++ [c] }

/-- `Ledger.warn`. -/
def Ledger.warn (l : Ledger) (msg : String) : Ledger :=
  { l with warnings := l.warnings ++ [msg] }

/-- An argument tuple for `Ledger.add`, to speak about arbitrary planning
sequences. -/
structure AddReq where
  action : String
  source : Pathm
  destination : Pathm
  reason : String := ""
  parent_folder : String := ""
  vin : String := ""
deriving DecidableEq

/-- Run a sequence of `add` calls against the empty ledger. -/
def applyReqs (reqs : List AddReq) : Ledger :=
  reqs.foldl (fun l r => l.add r.action r.source r.destination r.reason r.parent_folder r.vin)
    Ledger.empty

/-- The sources of the ledger's `copy_file` entries targeting destination
`d`, in plan order. -/
def dstSources (l : Ledger) (d : Pathm) : List Pathm :=
  (l.changes.filter (fun c => c.action = "copy_file" ∧ c.destination = d)).map
    (fun c => c.source)

-- ── Collision-safe helpers (`_files_identical`, `_safe_dest`) ───────────────

/-- The executor's read-only view of the destination filesystem: existence,
`stat().st_size` (`none` models an `OSError`), and MD5 content hash. -/
structure FsView where
  fsExists : Pathm → Bool
  size : Pathm → Option Nat
  md5 : Pathm → String

/-- `_files_identical`: size comparison first, then MD5 comparison; any
`OSError` yields `False`. -/
def files_identical (fs : FsView) (a b : Pathm) : Bool :=
  match fs.size a, fs.size b with
  | some sa, some sb => if sa ≠ sb then false else fs.md5 a = fs.md5 b
  | _, _ => false

/-- Strip a trailing `_<digits>` from a stem, as `re.match(r'^(.+?)_(\d+)$', stem)`
does: the digits must run to the end, follow an underscore, and leave a
non-empty base. -/
def stripNumSuffix (stem : String) : String :=
  let rev := stem.data.reverse
  let digits := rev.takeWhile Char.isDigit
  match rev.drop digits.length with
  | '_' :: restRev =>
      if digits ≠ [] ∧ restRev ≠ [] then String.mk restRev.reverse else stem
  | _ => stem

example : stripNumSuffix "cc_2" = "cc" := by decide
example : stripNumSuffix "a_1_2" = "a_1" := by decide
example : stripNumSuffix "ab_12x" = "ab_12x" := by decide
example : stripNumSuffix "_5" = "_5" := by decide

/-- The `i`-th collision candidate name `f"{base_stem}_{i}{suffix}"`. -/
def candidateName (baseStem : String) (i : Nat) (sfx : String) : String :=
  baseStem ++ "_" ++ toString i ++ sfx

/-- The `i`-th collision candidate path for destination `dst`. -/
def candAt (dst : Pathm) (i : Nat) : Pathm :=
  pathmParent dst ++
    [candidateName (stripNumSuffix (nameStem (pathmName dst))) i (pathSuffix (pathmName dst))]

/-- The `for i in range(1, 10000)` loop of `_safe_dest`: `i` is the next
candidate index, the second argument counts the remaining iterations. -/
def safeDestLoop (fs : FsView) (src dst : Pathm) : Nat → Nat → Pathm × String
  | _, 0 => (dst, "ok")
  | i, k + 1 =>
      let candidate := candAt dst i
      if !fs.fsExists candidate then (candidate, "renamed")
      else if files_identical fs src candidate then (candidate, "skip")
      else safeDestLoop fs src dst (i + 1) k

/-- `_safe_dest`. -/
def safe_dest (fs : FsView) (src dst : Pathm) : Pathm × String :=
  if !fs.fsExists dst then (dst, "ok")
  else if files_identical fs src dst then (dst, "skip")
  else safeDestLoop fs src dst 1 9999

-- ── Copy execution (`_exec_copy`) ───────────────────────────────────────────

/-- Outcome of one `shutil.copy2` attempt: success, an `OSError` (with its
`winerror` code and whether `'being used'` occurs in its message), or a
non-`OSError` exception. -/
inductive CopyOutcome where
  | success
  | osErr (winerror : Nat) (beingUsed : Bool)
  | otherErr
deriving DecidableEq

/-- The retry condition `getattr(e, 'winerror', 0) == 32 or 'being used' in str(e)`
(reachable only for `OSError`, the only exception the inner handler catches). -/
def isLockErr : CopyOutcome → Bool
  | .osErr w b => w = 32 || b
  | _ => false

/-- `_RETRY_ATTEMPTS = 5`. -/
def RETRY_ATTEMPTS : Nat := 5

/-- `_RETRY_BASE_DELAY = 0.1` seconds, modelled as the rational 1/10. -/
def RETRY_BASE_DELAY : ℚ := 1 / 10

/-- The retry loop of `_exec_copy`: `attempts n` is the outcome of the
`n`-th copy attempt; returns the final status and the list of back-off
sleeps performed (`_RETRY_BASE_DELAY * (2 ** attempt)` after each failed
lock attempt).  A non-lock error re-raises into the outer handler, which
marks the entry failed. -/
def copyLoop (attempts : Nat → CopyOutcome) : Nat → Nat → String × List ℚ
  | _, 0 => ("failed", [])
  | a, k + 1 =>
      match attempts a with
      | .success => ("done", [])
      | e =>
          if isLockErr e then
            let r := copyLoop attempts (a + 1) k
            (r.1, RETRY_BASE_DELAY * 2 ^ a :: r.2)
          else ("failed", [])

/-- `_exec_copy` on one ledger entry: skip a vanished source, resolve the
collision policy, then copy with retry; returns the updated entry and the
sleeps performed.  Directory creation and JSONL logging are I/O effects
with no bearing on the entry's final state. -/
def exec_copy (fs : FsView) (attempts : Nat → CopyOutcome) (c : Change) : Change × List ℚ :=
  if !fs.fsExists c.source then ({ c with status := "skipped" }, [])
  else
    let r := safe_dest fs c.source c.destination
    if r.2 = "skip" then ({ c with status := "skipped" }, [])
    else
      let c' := if r.2 = "renamed" then { c with destination := r.1 } else c
      let lr := copyLoop attempts 0 RETRY_ATTEMPTS
      ({ c' with status := lr.1 }, lr.2)

/-- A batch of consecutive `copy_file` operations: every entry is executed
by `_exec_copy` (whose outer handler swallows every exception), so each
entry gets a final status and no failure stops the batch. -/
def execCopyBatch (fs : FsView) (attempts : Nat → Nat → CopyOutcome) :
    Nat → List Change → List (Change × List ℚ)
  | _, [] => []
  | i, c :: cs => exec_copy fs (attempts i) c :: execCopyBatch fs attempts (i + 1) cs

-- ── Rename/dedup engine (`_rename_dedup_group`) ─────────────────────────────

/-- `by_hash[h].append(idx)` on the `defaultdict(list)`: append `idx` to the
class of key `h` (its position unchanged), or create that class at the end. -/
def addToClass (h : String) (idx : Nat) : List (String × List Nat) → List (String × List Nat)
  | [] => [(h, [idx])]
  | p :: rest => if p.1 = h then (p.1, p.2 ++ [idx]) :: rest else p :: addToClass h idx rest

/-- `by_hash`: group `indices` by the hash of their entry's source file,
preserving first-occurrence order of both keys and members (CPython
`defaultdict` insertion order). -/
def groupByHash (hash : Pathm → String) (changes : List Change) (indices : List Nat) :
    List (String × List Nat) :=
  indices.foldl (fun m idx => addToClass (hash (changes.getD idx default).source) idx m) []

/-- Rename the keeper entry's destination basename and record the original
name under `(vin, new_name)`. -/
def renameKeeper (changes : List Change) (keeper : Nat) (new_name : String)
    (orig : List ((String × String) × String)) :
    List Change × List ((String × String) × String) :=
  let c := changes.getD keeper default
  (changes.set keeper { c with destination := pathmParent c.destination ++ [new_name] },
   aset orig (c.vin, new_name) (pathmName c.destination))

/-- State threaded by `_rename_dedup_group`: indices to drop, the (mutated)
change list, the `deduped`/`renamed` counters, the original-names map, and
the numbering counter of the multi-hash branch. -/
structure DedupSt where
  remove : List Nat
  changes : List Change
  deduped : Nat
  renamed : Nat
  orig : List ((String × String) × String)
  counter : Nat
deriving DecidableEq

/-- One hash class of the multi-hash branch: drop all but the first entry,
then rename the keeper to `{base}_{counter}.pdf`. -/
def dedupStep (base_name : String) (st : DedupSt) (p : String × List Nat) : DedupSt :=
  let group := p.2
  let keeper := group.headD 0
  let counter := st.counter + 1
  let rc := renameKeeper st.changes keeper (base_name ++ "_" ++ toString counter ++ ".pdf") st.orig
  { remove := st.remove ++ group.tail, changes := rc.1,
    deduped := st.deduped + group.tail.length, renamed := st.renamed + 1,
    orig := rc.2, counter := counter }

/-- `_rename_dedup_group`: identical files collapse to a single
`{base}.pdf`; differing files keep one survivor per distinct hash, renamed
`{base}_1.pdf, {base}_2.pdf, …` in first-occurrence order of the hashes. -/
def rename_dedup_group (hash : Pathm → String) (changes : List Change)
    (indices : List Nat) (base_name : String) (deduped renamed : Nat)
    (orig : List ((String × String) × String)) : DedupSt :=
  if indices = [] then ⟨[], changes, deduped, renamed, orig, 0⟩
  else
    let by_hash := groupByHash hash changes indices
    if by_hash.length = 1 then
      let group := (by_hash.headD ("", [])).2
      let keeper := group.headD 0
      let rc := renameKeeper changes keeper (base_name ++ ".pdf") orig
      ⟨group.tail, rc.1, deduped + group.tail.length, renamed + 1, rc.2, 0⟩
    else
      by_hash.foldl (dedupStep base_name) ⟨[], changes, deduped, renamed, orig, 0⟩

-- ── PDF content cross-copy pass (`plan_pdf_cross_copies`) ───────────────────

/-- `MAX_CROSS_COPY_VINS = 100`. -/
def MAX_CROSS_COPY_VINS : Nat := 100

/-- `dst.relative_to(root)`: the remaining components, or `none`
(`ValueError`) when `root` is not a prefix. -/
def removeRoot (root p : Pathm) : Option Pathm :=
  if p.take root.length = root then some (p.drop root.length) else none

/-- Record `vin → output_root / partition` from a change whose destination
is `output_root / partition / …` with at least two relative components. -/
def vinPartitionUpdate (output_root : Pathm) (m : List (String × Pathm)) (c : Change) :
    List (String × Pathm) :=
  match removeRoot output_root c.destination with
  | some rel => if 2 ≤ rel.length then aset m c.vin (output_root ++ [rel.headD ""]) else m
  | none => m

/-- Python `sorted` on strings (ascending code-point order), via insertion. -/
def insSorted (x : String) : List String → List String
  | [] => [x]
  | y :: ys => if charListLt y.data x.data then y :: insSorted x ys else x :: y :: ys

/-- Python `sorted(l)`. -/
def sortStr (l : List String) : List String := l.foldr insSorted []

/-- The warning emitted when a PDF's content-VIN set exceeds the cap. -/
def crossCopyWarnMsg (p : Pathm) (n : Nat) : String :=
  "PDF '" ++ pathmName p ++ "' has " ++ toString n ++
    " VINs in content, skipping cross-copy (limit=" ++ toString MAX_CROSS_COPY_VINS ++ ")"

/-- State of the cross-copy pass. -/
structure CrossSt where
  ledger : Ledger
  already : List (Pathm × String)
  cross_copied : Nat
  skipped_too_many : Nat
  pdfs_checked : Nat
deriving DecidableEq

/-- Cross-copy one content VIN of a planned PDF. -/
def crossVinStep (vin_partition : List (String × Pathm)) (c : Change)
    (st : CrossSt) (vin : String) : CrossSt :=
  if (c.source, vin) ∈ st.already then st
  else
    match alook vin vin_partition with
    | none => st
    | some out_part =>
        { st with
          ledger := st.ledger.add "copy_file" c.source (out_part ++ [vin, pathmName c.source])
            "PDF content VIN cross-copy" c.parent_folder vin,
          already := st.already ++ [(c.source, vin)],
          cross_copied := st.cross_copied + 1 }

/-- Process one snapshot entry of the cross-copy pass. -/
def crossChangeStep (pdfCache : Pathm → List String)
    (vin_partition : List (String × Pathm)) (st : CrossSt) (c : Change) : CrossSt :=
  if c.action ≠ "copy_file" then st
  else if strLower (pathSuffix (pathmName c.source)) ≠ ".pdf" then st
  else
    let content_vins := pdfCache c.source
    if content_vins = [] then st
    else
      let st := { st with pdfs_checked := st.pdfs_checked + 1 }
      if MAX_CROSS_COPY_VINS < content_vins.length then
        { st with ledger := st.ledger.warn (crossCopyWarnMsg c.source content_vins.length),
                  skipped_too_many := st.skipped_too_many + 1 }
      else (sortStr content_vins).foldl (crossVinStep vin_partition c) st

/-- `plan_pdf_cross_copies`: `pdfCache` models `_pdf_cache` (one
enumeration of each PDF's content-VIN set). -/
def plan_pdf_cross_copies (pdfCache : Pathm → List String) (ledger : Ledger)
    (output_root : Pathm) : CrossSt :=
  let vin_partition := ledger.changes.foldl (fun m c =>
      if c.vin ≠ "" ∧ (c.action = "copy_file" ∨ c.action = "create_folder")
      then vinPartitionUpdate output_root m c else m) []
  let already := ledger.changes.foldl (fun s c =>
      if c.action = "copy_file" then s ++ [(c.source, c.vin)] else s) []
  ledger.changes.foldl (crossChangeStep pdfCache vin_partition)
    ⟨ledger, already, 0, 0, 0⟩

-- ── Contract gap-fill pass (`plan_contract_gap_fill`) ───────────────────────

/-- `_FACTURA_PRIORITY = re.compile(r'factur[aăi]', re.I)`. -/
def facturaPrio : RPattern := pat (ciStr "factur" ++ [.cls (oneOf "aAăĂiI".data)])

/-- `_SUBCONTRACT_PATTERNS`. -/
def subcontractPats : List RPattern :=
  [pat (ciStr "Subcontract"),
   pat ([.cls (oneOf ['_'])] ++ ciStr "sub" ++ [.starG isWs, .cls Char.isDigit]),
   ⟨true, ciStr "VIEW_Subcontract"⟩]

/-- `_CONTRACT_PATTERNS`. -/
def contractPats : List RPattern :=
  [pat (ciStr "Contract" ++ wsPlus ++ ciStr "Cadru"),
   pat (ciStr "ctr" ++ [.starG (fun c => isWs c || c = '_' || c = '.')] ++ ciStr "cadru"),
   pat (ciStr "CTR" ++ [.cls (oneOf ['.']), .starG isWs] ++ ciStr "CADRU"),
   pat (ciStr "Contract" ++ wsPlus ++ ciStr "de" ++ wsPlus ++ ciStr "Leasing"),
   pat (ciStr "LO" ++ wsPlus ++ ciStr "Contract")]

/-- `_CASCO_PATTERNS`. -/
def cascoPats : List RPattern :=
  [pat (ciStr "CASCO"), pat (ciStr "FlexiCasco"),
   pat (ciStr "Polita" ++ [.starG isWs] ++ ciStr "DT")]

/-- `_RCA_PATTERNS`. -/
def rcaPats : List RPattern :=
  [pat (ciStr "POLITA_RCA"), ⟨true, ciStr "POLITA_"⟩,
   pat ([.wb] ++ ciStr "RCA" ++ [.wb])]

/-- `_pdf_critical_category`: a factura filename yields no critical
category; otherwise the first of Subcontract / Contract Cadru / CASCO / RCA
whose filename patterns match. -/
def pdf_critical_category (fn : String) : Option String :=
  if patSearch facturaPrio fn.data then none
  else if subcontractPats.any (fun p => patSearch p fn.data) then some "Subcontract"
  else if contractPats.any (fun p => patSearch p fn.data) then some "Contract Cadru"
  else if cascoPats.any (fun p => patSearch p fn.data) then some "CASCO"
  else if rcaPats.any (fun p => patSearch p fn.data) then some "RCA"
  else none

/-- `_CRITICAL_CATEGORIES`. -/
def CRITICAL_CATEGORIES : List String := ["Contract Cadru", "Subcontract", "CASCO", "RCA"]

/-- Python `set.add` on a list-modelled set. -/
def setAdd (l : List String) (x : String) : List String := if x ∈ l then l else l ++ [x]

/-- `vin_categories[vin].add(cat)` on the `defaultdict(set)`. -/
def updVinCats (m : List (String × List String)) (vin cat : String) :
    List (String × List String) :=
  match alook vin m with
  | some cats => aset m vin (setAdd cats cat)
  | none => m ++ [(vin, [cat])]

/-- Accumulators of gap-fill step 1. -/
structure GapPre where
  vin_categories : List (String × List String)
  vin_partition : List (String × Pathm)
  already : List (Pathm × String)

/-- Gap-fill step 1: per planned copy, record `(source, vin)` as planned,
credit critical categories found in the destination filename and in the
PDF content-category cache, and track the VIN's partition. -/
def gapPreStep (pdfContentCats : Pathm → List String) (output_root : Pathm)
    (st : GapPre) (c : Change) : GapPre :=
  if c.action ≠ "copy_file" then st
  else
    let already := st.already ++ [(c.source, c.vin)]
    let vcats :=
      match pdf_critical_category (pathmName c.destination) with
      | some cat => if c.vin ≠ "" then updVinCats st.vin_categories c.vin cat else st.vin_categories
      | none => st.vin_categories
    let vcats :=
      if c.vin ≠ "" then
        (pdfContentCats c.source).foldl
          (fun m cc => if cc ∈ CRITICAL_CATEGORIES then updVinCats m c.vin cc else m) vcats
      else vcats
    let vpart :=
      if c.vin ≠ "" then vinPartitionUpdate output_root st.vin_partition c
      else st.vin_partition
    ⟨vcats, vpart, already⟩

/-- Gap-fill step 3: one `pdf_info` accumulation step. -/
def gapPdfInfoStep (pdfCache pdfContentCats : Pathm → List String)
    (m : List (Pathm × (List String × List String))) (c : Change) :
    List (Pathm × (List String × List String)) :=
  if c.action ≠ "copy_file" then m
  else if (alook c.source m).isSome then m
  else if strLower (pathSuffix (pathmName c.source)) ≠ ".pdf" then m
  else
    let content_vins := pdfCache c.source
    if content_vins = [] then m
    else
      let cats0 := match pdf_critical_category (pathmName c.source) with
        | some cat => [cat]
        | none => []
      let cats := cats0 ++ ((pdfContentCats c.source).filter
        (fun cc => cc ∈ CRITICAL_CATEGORIES ∧ cc ∉ cats0))
      if cats ≠ [] then m ++ [(c.source, (cats, content_vins))] else m

/-- State of gap-fill step 4. -/
structure GapSt where
  ledger : Ledger
  already : List (Pathm × String)
  vin_categories : List (String × List String)
  gap_filled : Nat

/-- Gap-fill step 4, inner loop over `pdf_info` for one VIN with its
still-missing categories (the loop breaks once nothing is missing).  Note
there is no content-VIN-count cap here. -/
def gapFillPdfLoop (out_part : Pathm) (vin : String) :
    GapSt → List String → List (Pathm × (List String × List String)) → GapSt
  | st, _, [] => st
  | st, missing, (src, (cats, cvins)) :: rest =>
      let matching := cats.filter (fun cat => cat ∈ missing)
      if matching = [] then gapFillPdfLoop out_part vin st missing rest
      else if vin ∉ cvins then gapFillPdfLoop out_part vin st missing rest
      else if (src, vin) ∈ st.already then gapFillPdfLoop out_part vin st missing rest
      else
        let filled_cat := sortedHead matching
        let st' : GapSt :=
          ⟨st.ledger.add "copy_file" src (out_part ++ [vin, pathmName src])
              ("Gap-fill: " ++ filled_cat ++ " from PDF content") "" vin,
           st.already ++ [(src, vin)],
           matching.foldl (fun m cat => updVinCats m vin cat) st.vin_categories,
           st.gap_filled + 1⟩
        let missing' := missing.filter (fun cat => cat ∉ matching)
        if missing' = [] then st' else gapFillPdfLoop out_part vin st' missing' rest

/-- `plan_contract_gap_fill`: returns the extended ledger, `gap_filled`,
and `vins_with_gaps`. -/
def plan_contract_gap_fill (pdfCache pdfContentCats : Pathm → List String)
    (ledger : Ledger) (output_root : Pathm) : Ledger × Nat × Nat :=
  let pre := ledger.changes.foldl (gapPreStep pdfContentCats output_root) ⟨[], [], []⟩
  let vins_needing := pre.vin_partition.foldl (fun acc p =>
      let missing := CRITICAL_CATEGORIES.filter
        (fun cat => cat ∉ (alook p.1 pre.vin_categories).getD [])
      if missing ≠ [] then acc ++ [(p.1, missing)] else acc) ([] : List (String × List String))
  if vins_needing = [] then (ledger, 0, 0)
  else
    let pdf_info := ledger.changes.foldl (gapPdfInfoStep pdfCache pdfContentCats) []
    let final := vins_needing.foldl (fun (st : GapSt) p =>
        match alook p.1 pre.vin_partition with
        | none => st
        | some out_part => gapFillPdfLoop out_part p.1 st p.2 pdf_info)
      ⟨ledger, pre.already, pre.vin_categories, 0⟩
    (final.ledger, final.gap_filled, vins_needing.length)

-- ═════════════════════════════════ Theorems ════════════════════════════════

-- ── Helper lemmas for `_safe_dest` ──────────────────────────────────────────

lemma safeDestLoop_all_full (fs : FsView) (src dst : Pathm)
    (h1 : ∀ i, fs.fsExists (candAt dst i) = true)
    (h2 : ∀ i, files_identical fs src (candAt dst i) = false) :
    ∀ k i, safeDestLoop fs src dst i k = (dst, "ok") := by
  intro k
  induction k with
  | zero => intro i; rfl
  | succ k ih =>
      intro i
      simp only [safeDestLoop, h1 i, h2 i, Bool.not_true, Bool.false_eq_true,
        if_false]
      exact ih (i + 1)

lemma safeDestLoop_first (fs : FsView) (src dst : Pathm) :
    ∀ (k i t : Nat), i ≤ t → t < i + k →
    (∀ j, i ≤ j → j < t → fs.fsExists (candAt dst j) = true ∧
      files_identical fs src (candAt dst j) = false) →
    (fs.fsExists (candAt dst t) = false →
      safeDestLoop fs src dst i k = (candAt dst t, "renamed")) ∧
    (fs.fsExists (candAt dst t) = true → files_identical fs src (candAt dst t) = true →
      safeDestLoop fs src dst i k = (candAt dst t, "skip")) := by
  intro k
  induction k with
  | zero => intro i t hit hlt _; omega
  | succ k ih =>
      intro i t hit hlt hskip
      rcases Nat.eq_or_lt_of_le hit with rfl | hlt'
      · constructor
        · intro habs
          simp only [safeDestLoop, habs, Bool.not_false, if_true]
        · intro hex hid
          simp only [safeDestLoop, hex, hid, Bool.not_true, Bool.false_eq_true,
            if_false, if_true]
      · obtain ⟨hex, hid⟩ := hskip i le_rfl hlt'
        have step : safeDestLoop fs src dst i (k + 1) = safeDestLoop fs src dst (i + 1) k := by
          simp only [safeDestLoop, hex, hid, Bool.not_true, Bool.false_eq_true, if_false]
        rw [step]
        exact ih (i + 1) t hlt' (by omega) (fun j hj1 hj2 => hskip j (by omega) hj2)

/-- C8: collision resolution of `_safe_dest`.  A missing destination is
used as-is with status `ok`; a byte-identical existing destination (size,
then MD5) yields `skip`; otherwise the suffixed candidates
`stem_1.ext, stem_2.ext, …` (trailing `_N` stripped first, as `candAt`
does) are tried in order and the first one that is absent is used with
status `renamed`, while the first one identical to the source yields
`skip` at that path. -/
theorem safe_dest_collision_policy (fs : FsView) (src dst : Pathm) :
    (fs.fsExists dst = false → safe_dest fs src dst = (dst, "ok")) ∧
    (fs.fsExists dst = true → files_identical fs src dst = true →
      safe_dest fs src dst = (dst, "skip")) ∧
    (fs.fsExists dst = true → files_identical fs src dst = false →
      ∀ t, 1 ≤ t → t < 10000 →
      (∀ j, 1 ≤ j → j < t → fs.fsExists (candAt dst j) = true ∧
        files_identical fs src (candAt dst j) = false) →
      (fs.fsExists (candAt dst t) = false →
        safe_dest fs src dst = (candAt dst t, "renamed")) ∧
      (fs.fsExists (candAt dst t) = true →
        files_identical fs src (candAt dst t) = true →
        safe_dest fs src dst = (candAt dst t, "skip"))) := by
  refine ⟨?_, ?_, ?_⟩
  · intro h
    simp only [safe_dest, h, Bool.not_false, if_true]
  · intro hex hid
    simp only [safe_dest, hex, hid, Bool.not_true, Bool.false_eq_true, if_false, if_true]
  · intro hex hid t ht1 ht2 hskip
    have hrw : safe_dest fs src dst = safeDestLoop fs src dst 1 9999 := by
      simp only [safe_dest, hex, hid, Bool.not_true, Bool.false_eq_true, if_false]
    rw [hrw]
    exact safeDestLoop_first fs src dst 9999 1 t ht1 (by omega) hskip

/-- Witness for `safe_dest_collision_policy`: a destination that exists
with different content and a free first candidate gets renamed to it. -/
theorem safe_dest_collision_policy_witness :
    safe_dest
      ⟨fun p => p = ["out", "f.pdf"], fun _ => some 0,
       fun p => if p = ["src"] then "s" else "d"⟩
      ["src"] ["out", "f.pdf"]
      = (["out", "f_1.pdf"], "renamed") := by
  have h := (safe_dest_collision_policy
    ⟨fun p => p = ["out", "f.pdf"], fun _ => some 0,
     fun p => if p = ["src"] then "s" else "d"⟩
    ["src"] ["out", "f.pdf"]).2.2 (by decide) (by decide) 1 le_rfl (by decide)
    (fun j hj1 hj2 => absurd (Nat.lt_of_le_of_lt hj1 hj2) (lt_irrefl 1))
  have h2 := h.1 (by decide)
  simpa using h2

lemma files_identical_eval (e : Pathm → Bool) (m : Pathm → String) (a b : Pathm) :
    files_identical ⟨e, fun _ => some 0, m⟩ a b = decide (m a = m b) := by
  simp [files_identical]

lemma candAt_length (dst : Pathm) (i : Nat) :
    (candAt dst i).length = (pathmParent dst).length + 1 := by
  simp [candAt]

/-- The exhaustion filesystem of the C10 scenario: everything exists, all
sizes agree, and only the source has hash `"s"`. -/
def exhaustFs : FsView :=
  ⟨fun _ => true, fun _ => some 0, fun p => if p = ["src"] then "s" else "d"⟩

lemma exhaustFs_not_identical (i : Nat) :
    files_identical exhaustFs ["src"] (candAt ["out", "f.pdf"] i) = false := by
  have hne : candAt ["out", "f.pdf"] i ≠ (["src"] : Pathm) := by
    intro he
    have hlen := congrArg List.length he
    rw [candAt_length] at hlen
    simp [pathmParent] at hlen
  rw [show exhaustFs = ⟨fun _ => true, fun _ => some 0,
      fun p => if p = ["src"] then "s" else "d"⟩ from rfl,
    files_identical_eval]
  simp only [if_pos rfl, if_neg hne]
  decide

/-- C10: a filesystem state in which the destination and all 9999 suffixed
candidates exist with content differing from the source makes `_safe_dest`
return the original destination with status `ok`, so the executor would
overwrite an existing, non-identical file. -/
theorem safe_dest_cap_exhaustion_overwrites :
    ∃ (fs : FsView) (src dst : Pathm),
      fs.fsExists dst = true ∧ files_identical fs src dst = false ∧
      (∀ i, 1 ≤ i → i ≤ 9999 → fs.fsExists (candAt dst i) = true ∧
        files_identical fs src (candAt dst i) = false) ∧
      safe_dest fs src dst = (dst, "ok") := by
  refine ⟨exhaustFs, ["src"], ["out", "f.pdf"], rfl, by decide,
    fun i _ _ => ⟨rfl, exhaustFs_not_identical i⟩, ?_⟩
  have hloop := safeDestLoop_all_full exhaustFs ["src"] ["out", "f.pdf"]
    (fun _ => rfl) exhaustFs_not_identical 9999 1
  simp only [safe_dest]
  rw [if_neg (by decide), if_neg (by decide)]
  exact hloop

-- ── Helper lemmas for the retry loop ────────────────────────────────────────

/-- The back-off sleeps for `t` consecutive failed lock attempts starting at
attempt index `a`. -/
def delaysFrom (a t : Nat) : List ℚ :=
  (List.range t).map (fun j => RETRY_BASE_DELAY * 2 ^ (a + j))

lemma delaysFrom_succ (a t : Nat) :
    delaysFrom a (t + 1) = RETRY_BASE_DELAY * 2 ^ a :: delaysFrom (a + 1) t := by
  unfold delaysFrom
  rw [List.range_succ_eq_map, List.map_cons, List.map_map]
  simp only [Nat.add_zero]
  congr 1
  apply List.map_congr_left
  intro x _
  simp only [Function.comp_apply, Nat.succ_eq_add_one]
  congr 2
  omega

lemma copyLoop_lock_steps (attempts : Nat → CopyOutcome) :
    ∀ (t k a : Nat), t ≤ k →
    (∀ j, j < t → isLockErr (attempts (a + j)) = true) →
    copyLoop attempts a k =
      ((copyLoop attempts (a + t) (k - t)).1,
       delaysFrom a t ++ (copyLoop attempts (a + t) (k - t)).2) := by
  intro t
  induction t with
  | zero => intro k a _ _; simp [delaysFrom]
  | succ t ih =>
      intro k a htk hlock
      obtain ⟨k', rfl⟩ : ∃ k', k = k' + 1 := ⟨k - 1, by omega⟩
      have h0 : isLockErr (attempts a) = true := by
        have := hlock 0 (by omega); simpa using this
      have hstep : copyLoop attempts a (k' + 1) =
          ((copyLoop attempts (a + 1) k').1,
           RETRY_BASE_DELAY * 2 ^ a :: (copyLoop attempts (a + 1) k').2) := by
        cases hatt : attempts a with
        | success => rw [hatt] at h0; simp [isLockErr] at h0
        | osErr w b =>
            rw [hatt] at h0
            simp only [copyLoop, hatt, h0, if_true]
        | otherErr => rw [hatt] at h0; simp [isLockErr] at h0
      have hrec := ih k' (a + 1) (by omega) (fun j hj => by
        have h := hlock (j + 1) (by omega)
        rw [show a + 1 + j = a + (j + 1) by omega]
        exact h)
      rw [hstep, hrec, delaysFrom_succ]
      rw [show a + 1 + t = a + (t + 1) by omega, show k' - t = k' + 1 - (t + 1) by omega]
      rfl

lemma copyLoop_status (attempts : Nat → CopyOutcome) :
    ∀ k a, (copyLoop attempts a k).1 = "done" ∨ (copyLoop attempts a k).1 = "failed" := by
  intro k
  induction k with
  | zero => intro a; right; rfl
  | succ k ih =>
      intro a
      cases hatt : attempts a with
      | success => left; simp [copyLoop, hatt]
      | osErr w b =>
          by_cases hl : isLockErr (.osErr w b) = true
          · rcases ih (a + 1) with h | h
            · left; simp [copyLoop, hatt, hl, h]
            · right; simp [copyLoop, hatt, hl, h]
          · right
            simp only [copyLoop, hatt]
            rw [if_neg hl]
      | otherErr => right; simp [copyLoop, hatt, isLockErr]

lemma exec_copy_status (fs : FsView) (att : Nat → CopyOutcome) (c : Change) :
    (exec_copy fs att c).1.status = "done" ∨ (exec_copy fs att c).1.status = "skipped" ∨
      (exec_copy fs att c).1.status = "failed" := by
  unfold exec_copy
  by_cases h1 : (!fs.fsExists c.source) = true
  · rw [if_pos h1]; right; left; rfl
  · rw [if_neg h1]
    dsimp only
    by_cases h2 : (safe_dest fs c.source c.destination).2 = "skip"
    · rw [if_pos h2]; right; left; rfl
    · rw [if_neg h2]
      rcases copyLoop_status att RETRY_ATTEMPTS 0 with h | h
      · left; exact h
      · right; right; exact h

lemma execCopyBatch_spec (fs : FsView) (att : Nat → Nat → CopyOutcome) :
    ∀ (batch : List Change) (i0 : Nat),
      (execCopyBatch fs att i0 batch).length = batch.length ∧
      ∀ r ∈ execCopyBatch fs att i0 batch,
        r.1.status = "done" ∨ r.1.status = "skipped" ∨ r.1.status = "failed" := by
  intro batch
  induction batch with
  | nil => intro i0; exact ⟨rfl, fun r hr => absurd hr (List.not_mem_nil r)⟩
  | cons c cs ih =>
      intro i0
      refine ⟨by simp [execCopyBatch, (ih (i0 + 1)).1], ?_⟩
      intro r hr
      rcases List.mem_cons.mp hr with rfl | hr'
      · exact exec_copy_status fs (att i0) c
      · exact (ih (i0 + 1)).2 r hr'

/-- C9: the executor's failure handling.  A copy whose attempts all fail
with lock errors (Windows error 32 or a "being used" message) is retried
for 5 total attempts with back-off sleeps 0.1, 0.2, 0.4, 0.8, 1.6 seconds
before being marked failed; success after `k` lock failures stops after the
first `k` sleeps; a non-lock error at attempt `k` marks the entry failed
immediately (no further sleep); and every entry of a copy batch receives a
final status — a failure never aborts the remaining operations. -/
theorem exec_copy_retry_policy :
    (∀ attempts : Nat → CopyOutcome,
      (∀ j, j < RETRY_ATTEMPTS → isLockErr (attempts j) = true) →
      copyLoop attempts 0 RETRY_ATTEMPTS =
        ("failed", [1/10, 2/10, 4/10, 8/10, 16/10])) ∧
    (∀ attempts : Nat → CopyOutcome, ∀ k, k < RETRY_ATTEMPTS →
      (∀ j, j < k → isLockErr (attempts j) = true) →
      attempts k = CopyOutcome.success →
      copyLoop attempts 0 RETRY_ATTEMPTS = ("done", delaysFrom 0 k)) ∧
    (∀ attempts : Nat → CopyOutcome, ∀ k, k < RETRY_ATTEMPTS →
      (∀ j, j < k → isLockErr (attempts j) = true) →
      attempts k ≠ CopyOutcome.success → isLockErr (attempts k) = false →
      copyLoop attempts 0 RETRY_ATTEMPTS = ("failed", delaysFrom 0 k)) ∧
    (∀ (fs : FsView) (attempts : Nat → Nat → CopyOutcome) (i0 : Nat)
        (batch : List Change),
      (execCopyBatch fs attempts i0 batch).length = batch.length ∧
      ∀ r ∈ execCopyBatch fs attempts i0 batch,
        r.1.status = "done" ∨ r.1.status = "skipped" ∨ r.1.status = "failed") := by
  refine ⟨?_, ?_, ?_, fun fs att i0 batch => execCopyBatch_spec fs att batch i0⟩
  · intro attempts hlock
    have h := copyLoop_lock_steps attempts RETRY_ATTEMPTS RETRY_ATTEMPTS 0 le_rfl
      (fun j hj => by simpa using hlock j hj)
    rw [h]
    rw [show copyLoop attempts (0 + RETRY_ATTEMPTS) (RETRY_ATTEMPTS - RETRY_ATTEMPTS)
        = ("failed", []) from rfl, List.append_nil]
    refine congrArg (Prod.mk "failed") ?_
    show delaysFrom 0 RETRY_ATTEMPTS = [1/10, 2/10, 4/10, 8/10, 16/10]
    simp only [delaysFrom, RETRY_ATTEMPTS, RETRY_BASE_DELAY]
    norm_num [List.range_succ, List.map_append]
  · intro attempts k hk hlock hsucc
    have h := copyLoop_lock_steps attempts k RETRY_ATTEMPTS 0 (by omega)
      (fun j hj => by simpa using hlock j hj)
    rw [h]
    obtain ⟨m, hm⟩ : ∃ m, RETRY_ATTEMPTS - k = m + 1 :=
      ⟨RETRY_ATTEMPTS - k - 1, by omega⟩
    have hdone : copyLoop attempts (0 + k) (RETRY_ATTEMPTS - k) = ("done", []) := by
      rw [hm]
      simp only [copyLoop, Nat.zero_add, hsucc]
    rw [hdone, List.append_nil]
  · intro attempts k hk hlock hns hnl
    have h := copyLoop_lock_steps attempts k RETRY_ATTEMPTS 0 (by omega)
      (fun j hj => by simpa using hlock j hj)
    rw [h]
    obtain ⟨m, hm⟩ : ∃ m, RETRY_ATTEMPTS - k = m + 1 :=
      ⟨RETRY_ATTEMPTS - k - 1, by omega⟩
    have hfail : copyLoop attempts (0 + k) (RETRY_ATTEMPTS - k) = ("failed", []) := by
      rw [hm]
      cases hatt : attempts k with
      | success => exact absurd hatt hns
      | osErr w b =>
          rw [hatt] at hnl
          simp only [copyLoop, Nat.zero_add, hatt, hnl, Bool.false_eq_true, if_false]
      | otherErr =>
          simp only [copyLoop, Nat.zero_add, hatt, isLockErr, Bool.false_eq_true, if_false]
    rw [hfail, List.append_nil]

/-- Witness for `exec_copy_retry_policy`: five lock errors produce exactly
the five exponential back-off sleeps and a failed status. -/
theorem exec_copy_retry_policy_witness :
    copyLoop (fun _ => CopyOutcome.osErr 32 false) 0 RETRY_ATTEMPTS =
      ("failed", [1/10, 2/10, 4/10, 8/10, 16/10]) :=
  exec_copy_retry_policy.1 (fun _ => CopyOutcome.osErr 32 false) (fun _ _ => rfl)

-- ── Helper lemmas for the ledger invariant ──────────────────────────────────

lemma alook_append {α β : Type} [DecidableEq α] (k : α) (m1 m2 : List (α × β)) :
    alook k (m1 ++ m2) = (alook k m1).orElse (fun _ => alook k m2) := by
  induction m1 with
  | nil => rfl
  | cons p rest ih =>
      simp only [List.cons_append, alook]
      by_cases h : p.1 = k
      · rw [if_pos h, if_pos h]
        rfl
      · rw [if_neg h, if_neg h]
        exact ih

lemma alook_map_set {α β : Type} [DecidableEq α] (k : α) (v : β) :
    ∀ m : List (α × β),
      alook k (m.map (fun p => if p.1 = k then (p.1, v) else p)) =
        if (alook k m).isSome then some v else none := by
  intro m
  induction m with
  | nil => rfl
  | cons p rest ih =>
      simp only [List.map_cons]
      by_cases h : p.1 = k
      · rw [if_pos h]
        simp only [alook]
        rw [if_pos h]
        have hcond : (if p.1 = k then some p.2 else alook k rest).isSome = true := by
          rw [if_pos h]; rfl
        rw [if_pos hcond]
      · rw [if_neg h]
        simp only [alook]
        rw [if_neg h, ih]
        by_cases h2 : (alook k rest).isSome = true
        · rw [if_pos h2, if_pos (show (if p.1 = k then some p.2 else
            alook k rest).isSome = true from by rw [if_neg h]; exact h2)]
        · rw [if_neg h2, if_neg (show ¬(if p.1 = k then some p.2 else
            alook k rest).isSome = true from by rw [if_neg h]; exact h2)]

lemma alook_map_set_ne {α β : Type} [DecidableEq α] (k k' : α) (v : β) (hne : k' ≠ k) :
    ∀ m : List (α × β),
      alook k' (m.map (fun p => if p.1 = k then (p.1, v) else p)) = alook k' m := by
  intro m
  induction m with
  | nil => rfl
  | cons p rest ih =>
      simp only [List.map_cons]
      by_cases h : p.1 = k
      · rw [if_pos h]
        simp only [alook]
        have hne2 : ¬p.1 = k' := by rw [h]; exact fun hc => hne hc.symm
        rw [if_neg hne2, if_neg hne2]
        exact ih
      · rw [if_neg h]
        simp only [alook]
        by_cases h2 : p.1 = k'
        · rw [if_pos h2, if_pos h2]
        · rw [if_neg h2, if_neg h2]
          exact ih

lemma alook_aset_self {α β : Type} [DecidableEq α] (m : List (α × β)) (k : α) (v : β) :
    alook k (aset m k v) = some v := by
  unfold aset
  by_cases h : (alook k m).isSome
  · rw [if_pos h, alook_map_set, if_pos h]
  · rw [if_neg h, alook_append]
    have : alook k m = none := Option.not_isSome_iff_eq_none.mp h
    simp [this, alook, Option.orElse]

lemma alook_aset_ne {α β : Type} [DecidableEq α] (m : List (α × β)) (k k' : α) (v : β)
    (h : k' ≠ k) : alook k' (aset m k v) = alook k' m := by
  unfold aset
  by_cases hs : (alook k m).isSome
  · rw [if_pos hs, alook_map_set_ne _ _ _ h]
  · rw [if_neg hs, alook_append]
    cases hlk : alook k' m with
    | some w => simp [Option.orElse]
    | none =>
        show alook k' [(k, v)] = none
        simp only [alook]
        rw [if_neg (fun hc => h hc.symm)]

/-- The sources of a change list's `copy_file` entries targeting `d`. -/
def srcsOf (cs : List Change) (d : Pathm) : List Pathm :=
  (cs.filter (fun c => c.action = "copy_file" ∧ c.destination = d)).map (fun c => c.source)

lemma dstSources_eq_srcsOf (l : Ledger) (d : Pathm) : dstSources l d = srcsOf l.changes d := rfl

lemma srcsOf_append (cs : List Change) (c : Change) (d : Pathm) :
    srcsOf (cs ++ [c]) d = srcsOf cs d ++ srcsOf [c] d := by
  simp [srcsOf, List.filter_append]

lemma srcsOf_single_hit (c : Change) (d : Pathm) (h1 : c.action = "copy_file")
    (h2 : c.destination = d) : srcsOf [c] d = [c.source] := by
  simp [srcsOf, List.filter, h1, h2]

lemma srcsOf_single_miss (c : Change) (d : Pathm)
    (h : ¬(c.action = "copy_file" ∧ c.destination = d)) : srcsOf [c] d = [] := by
  simp only [srcsOf, List.filter]
  rw [decide_eq_false h]
  rfl

/-- Invariant tying the planned-destination index to the plan: for every
destination, consecutive planned sources differ, and the index holds the
most recently planned source. -/
def LedgerInv (l : Ledger) : Prop :=
  ∀ d, List.Chain' (fun a b => a ≠ b) (dstSources l d) ∧
    alook d l.plannedDests = (dstSources l d).getLast?

lemma ledgerInv_empty : LedgerInv Ledger.empty := fun _ => ⟨List.chain'_nil, rfl⟩

lemma ledgerInv_add (l : Ledger) (action : String) (src dst : Pathm)
    (r p v : String) (hinv : LedgerInv l) :
    LedgerInv (l.add action src dst r p v) := by
  intro d
  unfold Ledger.add
  by_cases hact : action = "copy_file"
  · rw [if_pos hact]
    rcases hlk : alook dst l.plannedDests with _ | src'
    · -- destination not planned yet: append and index
      dsimp only
      by_cases hd : dst = d
      · subst hd
        have hsrcs : srcsOf (l.changes ++ [⟨action, src, dst, r, p, v, "planned"⟩]) dst =
            srcsOf l.changes dst ++ [src] := by
          rw [srcsOf_append, srcsOf_single_hit _ _ hact rfl]
        have hlast : (dstSources l dst).getLast? = none := by
          rw [← (hinv dst).2, hlk]
        have hnil : dstSources l dst = [] := List.getLast?_eq_none_iff.mp hlast
        constructor
        · show List.Chain' _ (srcsOf (l.changes ++ [_]) dst)
          rw [hsrcs, ← dstSources_eq_srcsOf, hnil]
          exact List.chain'_singleton _
        · show alook dst (aset l.plannedDests dst src) = _
          rw [alook_aset_self]
          show _ = (srcsOf (l.changes ++ [_]) dst).getLast?
          rw [hsrcs, ← dstSources_eq_srcsOf, hnil]
          rfl
      · have hsrcs : srcsOf (l.changes ++ [⟨action, src, dst, r, p, v, "planned"⟩]) d =
            srcsOf l.changes d := by
          rw [srcsOf_append, srcsOf_single_miss _ _ (fun hc => hd hc.2), List.append_nil]
        constructor
        · show List.Chain' _ (srcsOf (l.changes ++ [_]) d)
          rw [hsrcs, ← dstSources_eq_srcsOf]
          exact (hinv d).1
        · show alook d (aset l.plannedDests dst src) = _
          rw [alook_aset_ne _ _ _ _ (fun hc => hd hc.symm)]
          show _ = (srcsOf (l.changes ++ [_]) d).getLast?
          rw [hsrcs, ← dstSources_eq_srcsOf]
          exact (hinv d).2
    · -- destination already planned
      dsimp only
      by_cases hsame : src' = src
      · rw [if_pos hsame]
        exact hinv d
      · rw [if_neg hsame]
        by_cases hd : dst = d
        · subst hd
          have hsrcs : srcsOf (l.changes ++ [⟨action, src, dst, r, p, v, "planned"⟩]) dst =
              srcsOf l.changes dst ++ [src] := by
            rw [srcsOf_append, srcsOf_single_hit _ _ hact rfl]
          have hlast : (dstSources l dst).getLast? = some src' := by
            rw [← (hinv dst).2, hlk]
          constructor
          · show List.Chain' _ (srcsOf (l.changes ++ [_]) dst)
            rw [hsrcs, ← dstSources_eq_srcsOf]
            rw [List.chain'_append]
            refine ⟨(hinv dst).1, List.chain'_singleton _, ?_⟩
            intro x hx y hy
            rw [hlast] at hx
            cases hx
            cases hy
            exact fun hc => hsame hc
          · show alook dst (aset l.plannedDests dst src) = _
            rw [alook_aset_self]
            show _ = (srcsOf (l.changes ++ [_]) dst).getLast?
            rw [hsrcs]
            rw [List.getLast?_concat]
        · have hsrcs : srcsOf (l.changes ++ [⟨action, src, dst, r, p, v, "planned"⟩]) d =
              srcsOf l.changes d := by
            rw [srcsOf_append, srcsOf_single_miss _ _ (fun hc => hd hc.2), List.append_nil]
          constructor
          · show List.Chain' _ (srcsOf (l.changes ++ [_]) d)
            rw [hsrcs, ← dstSources_eq_srcsOf]
            exact (hinv d).1
          · show alook d (aset l.plannedDests dst src) = _
            rw [alook_aset_ne _ _ _ _ (fun hc => hd hc.symm)]
            show _ = (srcsOf (l.changes ++ [_]) d).getLast?
            rw [hsrcs, ← dstSources_eq_srcsOf]
            exact (hinv d).2
  · rw [if_neg hact]
    have hsrcs : ∀ d', srcsOf (l.changes ++ [⟨action, src, dst, r, p, v, "planned"⟩]) d' =
        srcsOf l.changes d' := by
      intro d'
      rw [srcsOf_append, srcsOf_single_miss _ _ (fun hc => hact hc.1), List.append_nil]
    constructor
    · show List.Chain' _ (srcsOf (l.changes ++ [_]) d)
      rw [hsrcs, ← dstSources_eq_srcsOf]
      exact (hinv d).1
    · show alook d l.plannedDests = (srcsOf (l.changes ++ [_]) d).getLast?
      rw [hsrcs, ← dstSources_eq_srcsOf]
      exact (hinv d).2

lemma ledgerInv_foldl : ∀ (reqs : List AddReq) (l : Ledger), LedgerInv l →
    LedgerInv (reqs.foldl
      (fun l r => l.add r.action r.source r.destination r.reason r.parent_folder r.vin) l) := by
  intro reqs
  induction reqs with
  | nil => exact fun l h => h
  | cons r rest ih =>
      intro l h
      exact ih _ (ledgerInv_add l r.action r.source r.destination r.reason r.parent_folder r.vin h)

/-- The two-add sequence refuting the claimed destination-uniqueness
invariant: same destination, different sources, both kept. -/
def conflictLedger : Ledger :=
  (Ledger.empty.add "copy_file" ["SIN", "a.pdf"] ["OUT", "V", "doc.pdf"]).add
    "copy_file" ["SIN", "b.pdf"] ["OUT", "V", "doc.pdf"]

/-- C2 counterexample: planning two copies of different sources to the same
destination keeps both entries — two `copy_file` entries share a
destination without sharing a source, and the later conflicting addition
is not dropped. -/
theorem ledger_add_conflicting_destinations_counterexample :
    conflictLedger.changes.length = 2 ∧
    (conflictLedger.changes.getD 0 default).action = "copy_file" ∧
    (conflictLedger.changes.getD 1 default).action = "copy_file" ∧
    (conflictLedger.changes.getD 0 default).destination =
      (conflictLedger.changes.getD 1 default).destination ∧
    (conflictLedger.changes.getD 0 default).source ≠
      (conflictLedger.changes.getD 1 default).source := by decide

/-- C2 amended: a `copy_file` addition is dropped iff its destination is
already planned with the same most-recent source; two entries may share a
destination with different sources, but among the plan's `copy_file`
entries sharing a destination, consecutive entries always have different
sources (and the planned-destination index holds the most recent one). -/
theorem ledger_add_drop_condition_and_adjacent_sources :
    (∀ (reqs : List AddReq) (d : Pathm),
      List.Chain' (fun a b => a ≠ b) (dstSources (applyReqs reqs) d) ∧
      alook d (applyReqs reqs).plannedDests = (dstSources (applyReqs reqs) d).getLast?) ∧
    (∀ (l : Ledger) (action : String) (src dst : Pathm) (r p v : String),
      (l.add action src dst r p v).changes = l.changes ↔
        action = "copy_file" ∧ alook dst l.plannedDests = some src) := by
  constructor
  · intro reqs d
    exact ledgerInv_foldl reqs Ledger.empty ledgerInv_empty d
  · intro l action src dst r p v
    constructor
    · intro heq
      unfold Ledger.add at heq
      by_cases hact : action = "copy_file"
      · rw [if_pos hact] at heq
        rcases hlk : alook dst l.plannedDests with _ | src'
        · rw [hlk] at heq
          dsimp only at heq
          have := congrArg List.length heq
          simp at this
        · rw [hlk] at heq
          dsimp only at heq
          by_cases hsame : src' = src
          · exact ⟨hact, congrArg some hsame⟩
          · rw [if_neg hsame] at heq
            have := congrArg List.length heq
            simp at this
      · rw [if_neg hact] at heq
        have := congrArg List.length heq
        simp at this
    · rintro ⟨hact, hlk⟩
      unfold Ledger.add
      rw [if_pos hact, hlk]
      dsimp only
      rw [if_pos rfl]

-- ── `List.find?` characterization (for the priority loop) ───────────────────

lemma find?_eq_some_split {α : Type} (p : α → Bool) :
    ∀ (l : List α) (x : α), l.find? p = some x ↔
      ∃ l₁ l₂, l = l₁ ++ x :: l₂ ∧ p x = true ∧ ∀ y ∈ l₁, p y = false := by
  intro l
  induction l with
  | nil =>
      intro x
      constructor
      · intro h; cases h
      · rintro ⟨l₁, l₂, h, -, -⟩
        cases l₁ <;> cases h
  | cons a rest ih =>
      intro x
      by_cases ha : p a = true
      · rw [List.find?_cons_of_pos _ ha]
        constructor
        · intro h
          injection h with h
          subst h
          exact ⟨[], rest, rfl, ha, fun y hy => absurd hy (List.not_mem_nil y)⟩
        · rintro ⟨l₁, l₂, heq, hpx, hprev⟩
          cases l₁ with
          | nil =>
              injection heq with h1 _
              rw [h1]
          | cons b l₁' =>
              injection heq with h1 _
              exfalso
              have := hprev b (List.mem_cons_self b l₁')
              rw [← h1] at this
              rw [this] at ha
              cases ha
      · rw [List.find?_cons_of_neg _ (by simpa using ha)]
        rw [ih x]
        constructor
        · rintro ⟨l₁, l₂, heq, hpx, hprev⟩
          refine ⟨a :: l₁, l₂, by rw [heq]; simp, hpx, ?_⟩
          intro y hy
          rcases List.mem_cons.mp hy with rfl | hy'
          · simpa using ha
          · exact hprev y hy'
        · rintro ⟨l₁, l₂, heq, hpx, hprev⟩
          cases l₁ with
          | nil =>
              injection heq with h1 _
              exfalso
              rw [h1] at ha
              exact ha hpx
          | cons b l₁' =>
              injection heq with _ h2
              exact ⟨l₁', l₂, h2, hpx, fun y hy => hprev y (List.mem_cons_of_mem b hy)⟩

/-- C1 counterexample: on a text that begins with "CONTRACT CADRU" and has
later "Factura" occurrences, the code classifies `Facturi` (first match in
the fixed priority list), while the claimed first-position-wins rule would
select `Contract Cadru`. -/
theorem scan_pdf_category_first_position_counterexample :
    scanPdfForCategory "CONTRACT CADRU atasata Factura nr 1 Factura nr 2".data
      = some "Facturi" ∧
    specFirstPositionCategory "CONTRACT CADRU atasata Factura nr 1 Factura nr 2".data
      = some "Contract Cadru" ∧
    ("Facturi" : String) ≠ "Contract Cadru" := by
  refine ⟨by decide, by decide, by decide⟩

/-- C1 amended: when patterns of several categories match the text, the
selected category is the first category of the fixed priority list
`Facturi, TALON / CIV, Contract Cadru, Subcontract, CASCO, RCA` that has
any matching pattern, regardless of the offsets or counts of the matches. -/
theorem scan_pdf_category_fixed_priority (text : List Char) (cat : String) :
    scanPdfForCategory text = some cat ↔
      ∃ pre post, CONTENT_PRIORITY = pre ++ cat :: post ∧
        catMatches cat text = true ∧ ∀ c ∈ pre, catMatches c text = false :=
  find?_eq_some_split (fun c => catMatches c text) CONTENT_PRIORITY cat

-- ── First-maximum fold lemmas (Python `max(..., key=...)`) ──────────────────

lemma foldlMax_spec {α : Type} (key : α → Nat) :
    ∀ (l : List α) (b : α),
      ∃ r, l.foldl (fun b y => if key y > key b then y else b) b = r ∧
        ((r = b ∧ ∀ y ∈ l, key y ≤ key b) ∨
         (∃ l₁ l₂, l = l₁ ++ r :: l₂ ∧ key b < key r ∧
           (∀ y ∈ l₁, key y < key r) ∧ (∀ y ∈ l₂, key y ≤ key r))) := by
  intro l
  induction l with
  | nil => intro b; exact ⟨b, rfl, Or.inl ⟨rfl, by simp⟩⟩
  | cons y ys ih =>
      intro b
      by_cases h : key y > key b
      · obtain ⟨r, hr, hcase⟩ := ih y
        refine ⟨r, ?_, ?_⟩
        · rw [List.foldl_cons, if_pos h]; exact hr
        · rcases hcase with ⟨rfl, hall⟩ | ⟨l₁, l₂, heq, hlt, hbefore, hafter⟩
          · right; exact ⟨[], ys, rfl, h, fun z hz => absurd hz (List.not_mem_nil z), hall⟩
          · right
            refine ⟨y :: l₁, l₂, by rw [heq]; simp, lt_trans h hlt, ?_, hafter⟩
            intro z hz
            rcases List.mem_cons.mp hz with rfl | hz'
            · exact hlt
            · exact hbefore z hz'
      · have hle : key y ≤ key b := Nat.le_of_not_lt h
        obtain ⟨r, hr, hcase⟩ := ih b
        refine ⟨r, ?_, ?_⟩
        · rw [List.foldl_cons, if_neg h]; exact hr
        · rcases hcase with ⟨rfl, hall⟩ | ⟨l₁, l₂, heq, hlt, hbefore, hafter⟩
          · left
            refine ⟨rfl, ?_⟩
            intro z hz
            rcases List.mem_cons.mp hz with rfl | hz'
            · exact hle
            · exact hall z hz'
          · right
            refine ⟨y :: l₁, l₂, by rw [heq]; simp, hlt, ?_, hafter⟩
            intro z hz
            rcases List.mem_cons.mp hz with rfl | hz'
            · exact lt_of_le_of_lt hle hlt
            · exact hbefore z hz'

lemma pyMaxBy_spec {α : Type} (key : α → Nat) (l : List α) (x : α)
    (h : pyMaxBy key l = some x) :
    x ∈ l ∧ (∀ y ∈ l, key y ≤ key x) ∧
    ∃ l₁ l₂, l = l₁ ++ x :: l₂ ∧ ∀ y ∈ l₁, key y < key x := by
  cases l with
  | nil => cases h
  | cons a rest =>
      obtain ⟨r, hr, hcase⟩ := foldlMax_spec key rest a
      have hx : r = x := by
        simp only [pyMaxBy] at h
        rw [hr] at h
        injection h
      subst hx
      rcases hcase with ⟨rfl, hall⟩ | ⟨l₁, l₂, heq, hlt, hbefore, hafter⟩
      · refine ⟨List.mem_cons_self _ _, ?_, [], rest, rfl,
          fun y hy => absurd hy (List.not_mem_nil y)⟩
        intro y hy
        rcases List.mem_cons.mp hy with rfl | hy'
        · exact le_rfl
        · exact hall y hy'
      · refine ⟨by rw [heq]; exact List.mem_cons_of_mem a (by simp), ?_,
          a :: l₁, l₂, by rw [heq]; simp, ?_⟩
        · intro y hy
          rcases List.mem_cons.mp hy with rfl | hy'
          · exact le_of_lt hlt
          · rw [heq] at hy'
            rcases List.mem_append.mp hy' with hy1 | hy2
            · exact le_of_lt (hbefore y hy1)
            · rcases List.mem_cons.mp hy2 with rfl | hy3
              · exact le_rfl
              · exact hafter y hy3
        · intro y hy
          rcases List.mem_cons.mp hy with rfl | hy'
          · exact hlt
          · exact hbefore y hy'

-- ── Key uniqueness of the count map ─────────────────────────────────────────

lemma alook_isSome_of_mem_keys {α β : Type} [DecidableEq α] {v : α} :
    ∀ m : List (α × β), v ∈ m.map Prod.fst → (alook v m).isSome = true := by
  intro m
  induction m with
  | nil => intro h; cases h
  | cons p rest ih =>
      intro h
      by_cases hp : p.1 = v
      · simp only [alook]
        rw [if_pos hp]
        rfl
      · simp only [alook]
        rw [if_neg hp]
        rcases List.mem_cons.mp h with h1 | h2
        · exact absurd h1.symm hp
        · exact ih h2

lemma bump_fst {v : List Char} (p : List Char × Nat) :
    (if p.1 = v then (p.1, p.2 + 1) else p).1 = p.1 := by
  by_cases h : p.1 = v
  · rw [if_pos h]
  · rw [if_neg h]

lemma bumpCount_keys_nodup (m : List (List Char × Nat)) (v : List Char)
    (h : (m.map Prod.fst).Nodup) : ((bumpCount m v).map Prod.fst).Nodup := by
  unfold bumpCount
  by_cases hs : (alook v m).isSome
  · rw [if_pos hs]
    have hkeys : (m.map (fun p => if p.1 = v then (p.1, p.2 + 1) else p)).map Prod.fst
        = m.map Prod.fst := by
      rw [List.map_map]
      exact List.map_congr_left (fun p _ => bump_fst p)
    rw [hkeys]
    exact h
  · rw [if_neg hs]
    rw [List.map_append]
    rw [List.nodup_append]
    refine ⟨h, List.nodup_singleton _, ?_⟩
    intro x hx hx'
    simp only [List.map_cons, List.map_nil, List.mem_singleton] at hx'
    subst hx'
    exact hs (alook_isSome_of_mem_keys m hx)

lemma foldl_bump_keys_nodup :
    ∀ (vs : List (List Char)) (m : List (List Char × Nat)),
      (m.map Prod.fst).Nodup → ((vs.foldl bumpCount m).map Prod.fst).Nodup := by
  intro vs
  induction vs with
  | nil => exact fun m h => h
  | cons v rest ih => exact fun m h => ih _ (bumpCount_keys_nodup m v h)

lemma flatVinCounts_keys_nodup (setEnum : List (List Char) → List (List Char))
    (files : List String) : ((flatVinCounts setEnum files).map Prod.fst).Nodup := by
  unfold flatVinCounts
  suffices h : ∀ (fs : List String) (m : List (List Char × Nat)), (m.map Prod.fst).Nodup →
      ((fs.foldl (fun m fn => (setEnum (extract_all_vins fn.data)).foldl bumpCount m) m).map
        Prod.fst).Nodup by
    exact h files [] List.nodup_nil
  intro fs
  induction fs with
  | nil => exact fun m h => h
  | cons fn rest ih => exact fun m h => ih _ (foldl_bump_keys_nodup _ m h)

lemma alook_mem_self {α β : Type} [DecidableEq α] :
    ∀ (m : List (α × β)) (p : α × β), (m.map Prod.fst).Nodup → p ∈ m →
      alook p.1 m = some p.2 := by
  intro m
  induction m with
  | nil => intro p _ hp; cases hp
  | cons q rest ih =>
      intro p hnd hp
      rw [List.map_cons] at hnd
      have hnd' := List.nodup_cons.mp hnd
      rcases List.mem_cons.mp hp with rfl | hp'
      · simp [alook]
      · by_cases hq : q.1 = p.1
        · exfalso
          apply hnd'.1
          rw [hq]
          exact List.mem_map_of_mem Prod.fst hp'
        · simp only [alook]
          rw [if_neg hq]
          exact ih p hnd'.2 hp'

-- ── C4: Strategy C keeper election tie-break ────────────────────────────────

/-- The two-file folder of the C4 counterexample: one file names VIN
`B1234567890123456`, the other `A1234567890123456`; both counts are 1. -/
def c4Files : List String := ["B1234567890123456.pdf", "A1234567890123456.pdf"]

/-- C4 counterexample: with a tie in the maximal count, `plan_flat` elects
the first VIN in count-map insertion order (`B…`, from the first file
iterated), not the lexicographically smallest (`A…`) as claimed.  Both
VIN sets are singletons, so the result does not depend on the modelled set
iteration order. -/
theorem plan_flat_tie_break_counterexample :
    extract_all_vins "B1234567890123456.pdf".data = ["B1234567890123456".data] ∧
    extract_all_vins "A1234567890123456.pdf".data = ["A1234567890123456".data] ∧
    flatElectKeeper List.dedup c4Files = some "B1234567890123456".data ∧
    specFlatKeeperLex List.dedup c4Files = some "A1234567890123456".data ∧
    some "B1234567890123456".data ≠ some "A1234567890123456".data := by decide

/-- C4 amended: in Strategy C, when the parent-VIN rule does not apply and
at least one VIN occurs in filenames, the elected keeper is the VIN with
the maximum occurrence count, and ties in that maximum are broken by first
insertion into the count map (first occurrence during file iteration), not
lexicographically: every key listed before the keeper has a strictly
smaller count. -/
theorem plan_flat_keeper_first_max (setEnum : List (List Char) → List (List Char))
    (files : List String) (r : List Char)
    (h : flatElectKeeper setEnum files = some r) :
    r ∈ (flatVinCounts setEnum files).map Prod.fst ∧
    (∀ p ∈ flatVinCounts setEnum files,
      p.2 ≤ (alook r (flatVinCounts setEnum files)).getD 0) ∧
    ∃ ks₁ ks₂, (flatVinCounts setEnum files).map Prod.fst = ks₁ ++ r :: ks₂ ∧
      ∀ v ∈ ks₁, (alook v (flatVinCounts setEnum files)).getD 0 <
        (alook r (flatVinCounts setEnum files)).getD 0 := by
  have h' : pyMaxBy (fun v => (alook v (flatVinCounts setEnum files)).getD 0)
      ((flatVinCounts setEnum files).map Prod.fst) = some r := h
  obtain ⟨hmem, hle, ks₁, ks₂, hsplit, hbefore⟩ := pyMaxBy_spec _ _ _ h'
  refine ⟨hmem, ?_, ks₁, ks₂, hsplit, hbefore⟩
  intro p hp
  have hk := alook_mem_self _ p (flatVinCounts_keys_nodup setEnum files) hp
  have hb := hle p.1 (List.mem_map_of_mem Prod.fst hp)
  rw [hk] at hb
  simpa using hb

/-- Witness for `plan_flat_keeper_first_max` at the concrete two-file
folder. -/
theorem plan_flat_keeper_first_max_witness :
    "B1234567890123456".data ∈ (flatVinCounts List.dedup c4Files).map Prod.fst ∧
    (∀ p ∈ flatVinCounts List.dedup c4Files,
      p.2 ≤ (alook "B1234567890123456".data (flatVinCounts List.dedup c4Files)).getD 0) ∧
    ∃ ks₁ ks₂, (flatVinCounts List.dedup c4Files).map Prod.fst =
        ks₁ ++ "B1234567890123456".data :: ks₂ ∧
      ∀ v ∈ ks₁, (alook v (flatVinCounts List.dedup c4Files)).getD 0 <
        (alook "B1234567890123456".data (flatVinCounts List.dedup c4Files)).getD 0 :=
  plan_flat_keeper_first_max List.dedup c4Files "B1234567890123456".data (by decide)

-- ── Order lemmas for Python string comparison ───────────────────────────────

lemma charListLt_irrefl : ∀ l : List Char, charListLt l l = false := by
  intro l
  induction l with
  | nil => rfl
  | cons a as ih =>
      simp only [charListLt]
      rw [if_neg (lt_irrefl a.toNat), if_neg (lt_irrefl a.toNat)]
      exact ih

lemma charListLt_trans :
    ∀ a b c : List Char, charListLt a b = true → charListLt b c = true →
      charListLt a c = true := by
  intro a
  induction a with
  | nil =>
      intro b c hab hbc
      cases c with
      | nil =>
          cases b with
          | nil => simp [charListLt] at hab
          | cons y ys => simp [charListLt] at hbc
      | cons z zs => rfl
  | cons x xs ih =>
      intro b c hab hbc
      cases b with
      | nil => simp [charListLt] at hab
      | cons y ys =>
          cases c with
          | nil => simp [charListLt] at hbc
          | cons z zs =>
              simp only [charListLt] at hab hbc ⊢
              by_cases h1 : x.toNat < y.toNat
              · by_cases h2 : y.toNat < z.toNat
                · rw [if_pos (by omega : x.toNat < z.toNat)]
                · rw [if_neg h2] at hbc
                  by_cases h3 : z.toNat < y.toNat
                  · rw [if_pos h3] at hbc; cases hbc
                  · rw [if_pos (by omega : x.toNat < z.toNat)]
              · rw [if_neg h1] at hab
                by_cases h4 : y.toNat < x.toNat
                · rw [if_pos h4] at hab; cases hab
                · rw [if_neg h4] at hab
                  by_cases h2 : y.toNat < z.toNat
                  · rw [if_pos (by omega : x.toNat < z.toNat)]
                  · rw [if_neg h2] at hbc
                    by_cases h3 : z.toNat < y.toNat
                    · rw [if_pos h3] at hbc; cases hbc
                    · rw [if_neg h3] at hbc
                      rw [if_neg (by omega : ¬x.toNat < z.toNat),
                        if_neg (by omega : ¬z.toNat < x.toNat)]
                      exact ih ys zs hab hbc

lemma charListLt_asymm (a b : List Char) (h : charListLt a b = true) :
    charListLt b a = false := by
  rcases Bool.eq_false_or_eq_true (charListLt b a) with h0 | h0
  · have := charListLt_trans a b a h h0
    rw [charListLt_irrefl] at this
    cases this
  · exact h0

-- ── Minimum-fold lemma for `sorted(...)[0]` ─────────────────────────────────

lemma foldlMin_spec :
    ∀ (l : List String) (b : String),
      let r := l.foldl (fun b y => if charListLt y.data b.data then y else b) b
      (r = b ∨ r ∈ l) ∧ (r = b ∨ charListLt r.data b.data = true) ∧
      ∀ y ∈ b :: l, charListLt y.data r.data = false := by
  intro l
  induction l with
  | nil =>
      intro b
      refine ⟨Or.inl rfl, Or.inl rfl, ?_⟩
      intro y hy
      rcases List.mem_cons.mp hy with rfl | hy'
      · exact charListLt_irrefl _
      · cases hy'
  | cons y ys ih =>
      intro b
      by_cases hyb : charListLt y.data b.data = true
      · have hstep : (y :: ys).foldl (fun b y => if charListLt y.data b.data then y else b) b
            = ys.foldl (fun b y => if charListLt y.data b.data then y else b) y := by
          rw [List.foldl_cons, if_pos hyb]
        obtain ⟨hmem, hle, hmin⟩ := ih y
        rw [hstep]
        refine ⟨?_, ?_, ?_⟩
        · rcases hmem with h | h
          · right; rw [h]; exact List.mem_cons_self _ _
          · exact Or.inr (List.mem_cons_of_mem y h)
        · rcases hle with h | h
          · right; rw [h]; exact hyb
          · exact Or.inr (charListLt_trans _ _ _ h hyb)
        · intro z hz
          rcases List.mem_cons.mp hz with rfl | hz'
          · -- z = b: show ¬ b < r using r ≤ y < b
            rcases Bool.eq_false_or_eq_true
              (charListLt z.data (ys.foldl
                (fun b y => if charListLt y.data b.data then y else b) y).data) with h0 | h0
            swap
            · exact h0
            · exfalso
              rcases hle with h | h
              · rw [h] at h0
                have := charListLt_trans _ _ _ hyb h0
                rw [charListLt_irrefl] at this
                cases this
              · have h1 := charListLt_trans _ _ _ h0 h
                have := charListLt_trans _ _ _ hyb h1
                rw [charListLt_irrefl] at this
                cases this
          · exact hmin z hz'
      · have hstep : (y :: ys).foldl (fun b y => if charListLt y.data b.data then y else b) b
            = ys.foldl (fun b y => if charListLt y.data b.data then y else b) b := by
          rw [List.foldl_cons, if_neg hyb]
        obtain ⟨hmem, hle, hmin⟩ := ih b
        rw [hstep]
        refine ⟨?_, hle, ?_⟩
        · rcases hmem with h | h
          · exact Or.inl h
          · exact Or.inr (List.mem_cons_of_mem y h)
        · intro z hz
          rcases List.mem_cons.mp hz with rfl | hz'
          · exact hmin z (List.mem_cons_self _ _)
          · rcases List.mem_cons.mp hz' with rfl | hz''
            · -- z = y: ¬ y < r since ¬ y < b and r ≤ b
              rcases Bool.eq_false_or_eq_true
                (charListLt z.data (ys.foldl
                  (fun b y => if charListLt y.data b.data then y else b) b).data) with h0 | h0
              swap
              · exact h0
              · exfalso
                rcases hle with h | h
                · rw [h] at h0
                  rw [h0] at hyb
                  exact hyb rfl
                · have := charListLt_trans _ _ _ h0 h
                  rw [this] at hyb
                  exact hyb rfl
            · exact hmin z (List.mem_cons_of_mem b hz'')

lemma sortedHead_spec (l : List String) (h : l ≠ []) :
    sortedHead l ∈ l ∧ ∀ y ∈ l, charListLt y.data (sortedHead l).data = false := by
  cases l with
  | nil => exact absurd rfl h
  | cons x xs =>
      obtain ⟨hmem, _, hmin⟩ := foldlMin_spec xs x
      constructor
      · rcases hmem with h0 | h0
        · show (xs.foldl (fun b y => if charListLt y.data b.data then y else b) x) ∈ x :: xs
          rw [h0]
          exact List.mem_cons_self _ _
        · exact List.mem_cons_of_mem x h0
      · exact hmin

-- ── C5: parent-VIN election ─────────────────────────────────────────────────

lemma poolStep_not_file (acc : List (List Char) × List (List Char) × List (List Char))
    (e : FsEntry) (h : e.isFile = false) : poolStep acc e = acc := by
  unfold poolStep
  rw [h]
  rfl

lemma foldl_poolStep_filter :
    ∀ (entries : List FsEntry) (acc : List (List Char) × List (List Char) × List (List Char)),
      entries.foldl poolStep acc = (entries.filter (fun e => e.isFile)).foldl poolStep acc := by
  intro entries
  induction entries with
  | nil => intro acc; rfl
  | cons e rest ih =>
      intro acc
      rw [List.foldl_cons, List.filter_cons]
      cases he : e.isFile with
      | true => rw [if_pos rfl, List.foldl_cons]; exact ih (poolStep acc e)
      | false =>
          rw [if_neg (by simp)]
          rw [poolStep_not_file acc e he]
          exact ih acc

lemma poolStep_not_pdf (acc : List (List Char) × List (List Char) × List (List Char))
    (e : FsEntry) (h : (strLower (pathSuffix e.name) == ".pdf") = false) :
    poolStep acc e = acc := by
  unfold poolStep
  have hc : (!e.isFile || strLower (pathSuffix e.name) != ".pdf") = true := by
    simp [bne, h]
  rw [hc]
  rfl

lemma foldl_poolStep_filter_pdf :
    ∀ (entries : List FsEntry) (acc : List (List Char) × List (List Char) × List (List Char)),
      entries.foldl poolStep acc =
        (entries.filter
          (fun e => e.isFile && (strLower (pathSuffix e.name) == ".pdf"))).foldl poolStep acc := by
  intro entries
  induction entries with
  | nil => intro acc; rfl
  | cons e rest ih =>
      intro acc
      rw [List.foldl_cons, List.filter_cons]
      cases he : e.isFile with
      | false =>
          rw [if_neg (by simp [he]), poolStep_not_file acc e he]
          exact ih acc
      | true =>
          cases hp : (strLower (pathSuffix e.name) == ".pdf") with
          | false =>
              rw [if_neg (by simp [he, hp]), poolStep_not_pdf acc e hp]
              exact ih acc
          | true =>
              rw [if_pos (by simp [he, hp]), List.foldl_cons]
              exact ih (poolStep acc e)

/-- `List.dedup` is one valid model of CPython set iteration. -/
lemma dedup_isSetEnum : IsSetEnum List.dedup :=
  fun l => ⟨List.nodup_dedup l, fun _ => List.mem_dedup⟩

lemma pickMode_spec (setEnum : List (List Char) → List (List Char))
    (henum : IsSetEnum setEnum) (pool : List (List Char)) (hne : pool ≠ []) :
    ∃ r, pickMode setEnum pool = some r ∧ r ∈ pool ∧
      ∀ v ∈ pool, pool.count v ≤ pool.count r := by
  have hnonempty : setEnum pool ≠ [] := by
    obtain ⟨x, hx⟩ := List.exists_mem_of_ne_nil pool hne
    intro habs
    have hmem := ((henum pool).2 x).mpr hx
    rw [habs] at hmem
    cases hmem
  cases hse : setEnum pool with
  | nil => exact absurd hse hnonempty
  | cons a rest =>
      obtain ⟨hmem, hle, -⟩ := pyMaxBy_spec (fun v => pool.count v) (a :: rest)
        (rest.foldl (fun b y => if pool.count y > pool.count b then y else b) a) rfl
      refine ⟨rest.foldl (fun b y => if pool.count y > pool.count b then y else b) a,
        ?_, ?_, ?_⟩
      · unfold pickMode
        rw [hse]
        rfl
      · exact ((henum pool).2 _).mp (hse ▸ hmem)
      · intro v hv
        exact hle v (hse ▸ ((henum pool).2 v).mpr hv)

/-- C5 amended: parent-VIN election for multi-VIN containers.  Only direct
`.pdf` files contribute (subdirectory entries and non-PDF files are
ignored); the pools are FL, then seriec, then VIN-prefix; the parent VIN is
an element of maximal frequency of the first non-empty pool; and when all
pools are empty the parent VIN of `plan_multi_car` is the lexicographically
first VIN subdirectory name. -/
theorem get_parent_vin_pools_mode_fallback :
    (∀ entries : List FsEntry,
      getParentVinPools entries = getParentVinPools (entries.filter (fun e => e.isFile)) ∧
      getParentVinPools entries = getParentVinPools
        (entries.filter (fun e => e.isFile && (strLower (pathSuffix e.name) == ".pdf")))) ∧
    (∀ (setEnum : List (List Char) → List (List Char)) (entries : List FsEntry),
      IsSetEnum setEnum →
      ((getParentVinPools entries).1 ≠ [] →
        ∃ r, get_parent_vin setEnum entries = some r ∧
          r ∈ (getParentVinPools entries).1 ∧
          ∀ v ∈ (getParentVinPools entries).1,
            (getParentVinPools entries).1.count v ≤ (getParentVinPools entries).1.count r) ∧
      ((getParentVinPools entries).1 = [] → (getParentVinPools entries).2.1 ≠ [] →
        ∃ r, get_parent_vin setEnum entries = some r ∧
          r ∈ (getParentVinPools entries).2.1 ∧
          ∀ v ∈ (getParentVinPools entries).2.1,
            (getParentVinPools entries).2.1.count v ≤ (getParentVinPools entries).2.1.count r) ∧
      ((getParentVinPools entries).1 = [] → (getParentVinPools entries).2.1 = [] →
        (getParentVinPools entries).2.2 ≠ [] →
        ∃ r, get_parent_vin setEnum entries = some r ∧
          r ∈ (getParentVinPools entries).2.2 ∧
          ∀ v ∈ (getParentVinPools entries).2.2,
            (getParentVinPools entries).2.2.count v ≤ (getParentVinPools entries).2.2.count r) ∧
      ((getParentVinPools entries).1 = [] → (getParentVinPools entries).2.1 = [] →
        (getParentVinPools entries).2.2 = [] →
        get_parent_vin setEnum entries = none)) ∧
    (∀ (setEnum : List (List Char) → List (List Char)) (entries : List FsEntry)
        (names : List String),
      (getParentVinPools entries).1 = [] → (getParentVinPools entries).2.1 = [] →
      (getParentVinPools entries).2.2 = [] → names ≠ [] →
      multiCarParentVin setEnum entries names ∈ names ∧
      ∀ n ∈ names, charListLt n.data (multiCarParentVin setEnum entries names).data = false) := by
  have hnone : ∀ (setEnum : List (List Char) → List (List Char)) (entries : List FsEntry),
      (getParentVinPools entries).1 = [] → (getParentVinPools entries).2.1 = [] →
      (getParentVinPools entries).2.2 = [] → get_parent_vin setEnum entries = none := by
    intro setEnum entries h1 h2 h3
    unfold get_parent_vin
    rw [if_neg (by rw [h1]; exact fun hc => hc rfl),
      if_neg (by rw [h2]; exact fun hc => hc rfl),
      if_neg (by rw [h3]; exact fun hc => hc rfl)]
  refine ⟨?_, ?_, ?_⟩
  · intro entries
    exact ⟨foldl_poolStep_filter entries ([], [], []),
           foldl_poolStep_filter_pdf entries ([], [], [])⟩
  · intro setEnum entries henum
    refine ⟨?_, ?_, ?_, hnone setEnum entries⟩
    · intro h1
      obtain ⟨r, hr, hmem, hcount⟩ := pickMode_spec setEnum henum _ h1
      refine ⟨r, ?_, hmem, hcount⟩
      unfold get_parent_vin
      rw [if_pos h1]
      exact hr
    · intro h1 h2
      obtain ⟨r, hr, hmem, hcount⟩ := pickMode_spec setEnum henum _ h2
      refine ⟨r, ?_, hmem, hcount⟩
      unfold get_parent_vin
      rw [if_neg (by rw [h1]; exact fun hc => hc rfl), if_pos h2]
      exact hr
    · intro h1 h2 h3
      obtain ⟨r, hr, hmem, hcount⟩ := pickMode_spec setEnum henum _ h3
      refine ⟨r, ?_, hmem, hcount⟩
      unfold get_parent_vin
      rw [if_neg (by rw [h1]; exact fun hc => hc rfl),
        if_neg (by rw [h2]; exact fun hc => hc rfl), if_pos h3]
      exact hr
  · intro setEnum entries names h1 h2 h3 hne
    have hm : multiCarParentVin setEnum entries names = sortedHead names := by
      unfold multiCarParentVin
      rw [hnone setEnum entries h1 h2 h3]
    rw [hm]
    exact sortedHead_spec names hne

/-- Witness for `get_parent_vin_pools_mode_fallback`: a folder with one FL
file and one seriec file elects the FL pool's VIN. -/
theorem get_parent_vin_pools_mode_fallback_witness :
    (⟨"seriec_AAAAAA12345678901_doc.pdf", true⟩ :: ⟨"FL - CAR - BBBBBB98765432109.pdf", true⟩ ::
        ([] : List FsEntry)).length = 2 ∧
    ∃ r, get_parent_vin List.dedup
        [⟨"seriec_AAAAAA12345678901_doc.pdf", true⟩, ⟨"FL - CAR - BBBBBB98765432109.pdf", true⟩]
        = some r ∧
      r ∈ (getParentVinPools
        [⟨"seriec_AAAAAA12345678901_doc.pdf", true⟩,
         ⟨"FL - CAR - BBBBBB98765432109.pdf", true⟩]).1 ∧
      ∀ v ∈ (getParentVinPools
        [⟨"seriec_AAAAAA12345678901_doc.pdf", true⟩,
         ⟨"FL - CAR - BBBBBB98765432109.pdf", true⟩]).1,
        (getParentVinPools
          [⟨"seriec_AAAAAA12345678901_doc.pdf", true⟩,
           ⟨"FL - CAR - BBBBBB98765432109.pdf", true⟩]).1.count v ≤
        (getParentVinPools
          [⟨"seriec_AAAAAA12345678901_doc.pdf", true⟩,
           ⟨"FL - CAR - BBBBBB98765432109.pdf", true⟩]).1.count r :=
  ⟨rfl, ((get_parent_vin_pools_mode_fallback.2.1 List.dedup
    [⟨"seriec_AAAAAA12345678901_doc.pdf", true⟩, ⟨"FL - CAR - BBBBBB98765432109.pdf", true⟩]
    dedup_isSetEnum).1 (by decide))⟩

/-- C5 counterexample: a direct non-PDF file whose name starts with a valid
VIN followed by a space feeds the VIN-prefix pool per the claim's words
(which scan all direct files), but `get_parent_vin` skips it because its
suffix is not `.pdf`; with all pools empty the program falls back to the
lexicographically first VIN subdirectory, so the two readings elect
different parent VINs. -/
theorem get_parent_vin_nonpdf_counterexample :
    get_parent_vin List.dedup [⟨"AAAAAA11111111111 - doc.txt", true⟩] = none ∧
    specGetParentVinAllFiles List.dedup [⟨"AAAAAA11111111111 - doc.txt", true⟩]
      = some "AAAAAA11111111111".data ∧
    multiCarParentVin List.dedup [⟨"AAAAAA11111111111 - doc.txt", true⟩]
      ["BBBBBB22222222222"] = "BBBBBB22222222222" ∧
    specMultiCarParentVinAllFiles List.dedup [⟨"AAAAAA11111111111 - doc.txt", true⟩]
      ["BBBBBB22222222222"] = "AAAAAA11111111111" ∧
    ("BBBBBB22222222222" : String) ≠ "AAAAAA11111111111" :=
  ⟨by decide, by decide, by decide, by decide, by decide⟩

-- ── C3: shape of extracted VINs ─────────────────────────────────────────────

lemma vinTail_sound (f : Nat) (s : List Char) (cap : List Char) (n : Nat) (pv : Option Char)
    (h : reMatch (f + 1 + 1 + 1 + 1)
      [RElem.grp 17 isUpperDigit, RElem.nla isUpperDigit] pv s = some (cap, n)) :
    17 ≤ s.length ∧ (s.take 17).all isUpperDigit = true ∧
    (∀ c, (s.drop 17).head? = some c → isUpperDigit c = false) ∧
    cap = s.take 17 ∧ n = 17 := by
  simp only [reMatch] at h
  by_cases hcond : (decide ((s.take 17).length = 17) && (s.take 17).all isUpperDigit) = true
  swap
  · rw [if_neg hcond] at h
    cases h
  · rw [if_pos hcond] at h
    obtain ⟨hlen, hall⟩ := Bool.and_eq_true_iff.mp hcond
    have hlen2 : (s.take 17).length = 17 := of_decide_eq_true hlen
    have hslen : 17 ≤ s.length := by
      rw [List.length_take] at hlen2
      omega
    cases hdrop : s.drop 17 with
    | nil =>
        rw [hdrop] at h
        injection h with hpair
        rw [Prod.mk.injEq] at hpair
        refine ⟨hslen, hall, ?_, hpair.1.symm, by simpa using hpair.2.symm⟩
        intro c hc
        simp at hc
    | cons d rest2 =>
        rw [hdrop] at h
        dsimp only at h
        by_cases hd : isUpperDigit d = true
        · rw [if_pos hd] at h
          exact Option.noConfusion h
        · rw [if_neg hd] at h
          injection h with hpair
          rw [Prod.mk.injEq] at hpair
          refine ⟨hslen, hall, ?_, hpair.1.symm, by simpa using hpair.2.symm⟩
          intro c hc
          injection hc with hc2
          rw [← hc2]
          exact Bool.eq_false_iff.mpr hd

lemma vinMatch_sound (prev : Option Char) (s : List Char) (cap : List Char) (n : Nat)
    (h : reMatchTop vinElems prev s = some (cap, n)) :
    (∀ c, prev = some c → isUpperDigit c = false) ∧
    17 ≤ s.length ∧ (s.take 17).all isUpperDigit = true ∧
    (∀ c, (s.drop 17).head? = some c → isUpperDigit c = false) ∧
    cap = s.take 17 ∧ n = 17 := by
  have hf : reFuel vinElems s = s.length + 1 + 1 + 1 + 1 + 1 := by
    simp [reFuel, vinElems]
    omega
  unfold reMatchTop at h
  rw [hf] at h
  unfold vinElems at h
  conv at h => lhs; rw [reMatch.eq_def]
  dsimp only at h
  cases prev with
  | none =>
      dsimp only at h
      obtain ⟨h1, h2, h3, h4, h5⟩ := vinTail_sound s.length s cap n none h
      refine ⟨?_, h1, h2, h3, h4, h5⟩
      intro c hc
      cases hc
  | some c =>
      dsimp only at h
      by_cases hc : isUpperDigit c = true
      · rw [if_pos hc] at h
        cases h
      · rw [if_neg hc] at h
        obtain ⟨h1, h2, h3, h4, h5⟩ := vinTail_sound s.length s cap n (some c) h
        refine ⟨?_, h1, h2, h3, h4, h5⟩
        intro c2 hc2
        injection hc2 with hc3
        rw [← hc3]
        exact Bool.eq_false_iff.mpr hc

lemma vinScan_inv :
    ∀ (fuel : Nat) (prev : Option Char) (s : List Char) (v : List Char),
      v ∈ vinScan fuel prev s →
      v.length = 17 ∧ v.all isUpperDigit = true ∧
      ∃ a b, s = a ++ v ++ b ∧
        (∀ c, (a.getLast?).orElse (fun _ => prev) = some c → isUpperDigit c = false) ∧
        (∀ c, b.head? = some c → isUpperDigit c = false) := by
  intro fuel
  induction fuel with
  | zero => intro prev s v hv; cases hv
  | succ fuel ih =>
      intro prev s v hv
      simp only [vinScan] at hv
      unfold vinScanF at hv
      cases hm : reMatchTop vinElems prev s with
      | some r =>
          obtain ⟨cap, nn⟩ := r
          rw [hm] at hv
          dsimp only at hv
          obtain ⟨hprev, hslen, hall, hafter, hcap, hn⟩ := vinMatch_sound prev s cap nn hm
          subst hn
          rw [if_neg (by omega : ¬(17 : Nat) = 0)] at hv
          have htakelen : (s.take 17).length = 17 := by
            rw [List.length_take]
            omega
          rcases List.mem_cons.mp hv with rfl | hv'
          · subst hcap
            refine ⟨htakelen, hall, [], s.drop 17,
              by rw [List.nil_append, List.take_append_drop], ?_, hafter⟩
            intro c hc
            exact hprev c hc
          · obtain ⟨hlen', hall', a', b', hsplit, hbefore', hafter'⟩ :=
              ih ((s.take 17).getLast?) (s.drop 17) v hv'
            refine ⟨hlen', hall', s.take 17 ++ a', b', ?_, ?_, hafter'⟩
            · have h0 : s = List.take 17 s ++ (a' ++ v ++ b') := by
                rw [← hsplit, List.take_append_drop]
              exact h0.trans (by simp only [List.append_assoc])
            · intro c hc
              cases ha' : a' with
              | nil =>
                  -- the previous match ends in a VIN character, so the
                  -- recursive scan cannot match right at the boundary
                  exfalso
                  have hne : s.take 17 ≠ [] := by
                    intro habs
                    rw [habs] at htakelen
                    cases htakelen
                  have hlast := List.getLast?_eq_getLast_of_ne_nil hne
                  have hmem : (s.take 17).getLast hne ∈ s.take 17 := List.getLast_mem hne
                  have hclass : isUpperDigit ((s.take 17).getLast hne) = true :=
                    List.all_eq_true.mp hall _ hmem
                  have hcontra := hbefore' ((s.take 17).getLast hne) (by
                    rw [ha']
                    exact hlast)
                  rw [hclass] at hcontra
                  cases hcontra
              | cons x xs =>
                  apply hbefore' c
                  have hne : a' ≠ [] := by rw [ha']; exact List.cons_ne_nil x xs
                  rw [List.getLast?_append_of_ne_nil _ hne] at hc
                  cases hl : a'.getLast? with
                  | none =>
                      rw [List.getLast?_eq_none_iff] at hl
                      exact absurd hl hne
                  | some w =>
                      rw [hl] at hc
                      exact hc
      | none =>
          rw [hm] at hv
          dsimp only at hv
          cases s with
          | nil => cases hv
          | cons c t =>
              obtain ⟨hlen', hall', a', b', hsplit, hbefore', hafter'⟩ :=
                ih (some c) t v hv
              refine ⟨hlen', hall', c :: a', b', by rw [hsplit]; rfl, ?_, hafter'⟩
              intro c' hc'
              cases ha' : a' with
              | nil =>
                  subst ha'
                  exact hbefore' c' hc'
              | cons x xs =>
                  apply hbefore' c'
                  have hne : a' ≠ [] := by rw [ha']; exact List.cons_ne_nil x xs
                  rw [show c :: a' = [c] ++ a' from rfl,
                    List.getLast?_append_of_ne_nil _ hne] at hc'
                  cases hl : a'.getLast? with
                  | none =>
                      rw [List.getLast?_eq_none_iff] at hl
                      exact absurd hl hne
                  | some w =>
                      rw [hl] at hc'
                      exact hc'

/-- C3 counterexample: a VIN preceded by a lowercase letter is still
extracted (the pattern's lookarounds exclude only `[A-Z0-9]`), so the
character immediately before the extracted window can be alphanumeric. -/
theorem extract_all_vins_lowercase_neighbor_counterexample :
    extract_all_vins "aA1234567890123456".data = ["A1234567890123456".data] ∧
    "aA1234567890123456".data = ['a'] ++ "A1234567890123456".data ++ [] ∧
    (['a'] : List Char).getLast? = some 'a' ∧
    Char.isAlphanum 'a' = true := by decide

/-- C3 amended: every VIN returned by `extract_all_vins` is a 17-character
substring over `[A-Z0-9]` with at least one letter and one digit, and the
characters immediately before and after the extracted window, when they
exist, are not in `[A-Z0-9]` (uppercase letters or digits); a lowercase or
other alphanumeric neighbor is not excluded. -/
theorem extract_all_vins_shape (s v : List Char) (hv : v ∈ extract_all_vins s) :
    v.length = 17 ∧ v.all isUpperDigit = true ∧
    (∃ c ∈ v, c.isAlpha = true) ∧ (∃ c ∈ v, c.isDigit = true) ∧
    ∃ a b, s = a ++ v ++ b ∧
      (∀ c, a.getLast? = some c → isUpperDigit c = false) ∧
      (∀ c, b.head? = some c → isUpperDigit c = false) := by
  obtain ⟨hfind, hvalid⟩ := List.mem_filter.mp hv
  obtain ⟨hlen, hall, a, b, hsplit, hbefore, hafter⟩ :=
    vinScan_inv (s.length + 1) none s v hfind
  obtain ⟨hv1, hv2⟩ := Bool.and_eq_true_iff.mp hvalid
  obtain ⟨-, halpha⟩ := Bool.and_eq_true_iff.mp hv1
  refine ⟨hlen, hall, ?_, ?_, a, b, hsplit, ?_, hafter⟩
  · obtain ⟨c, hc, hca⟩ := List.any_eq_true.mp halpha
    exact ⟨c, hc, hca⟩
  · obtain ⟨c, hc, hcd⟩ := List.any_eq_true.mp hv2
    exact ⟨c, hc, hcd⟩
  · intro c hc
    apply hbefore c
    rw [hc]
    rfl

/-- Witness for `extract_all_vins_shape` at a VIN embedded between a
lowercase letter and a dash. -/
theorem extract_all_vins_shape_witness :
    "A1234567890123456".data.length = 17 ∧
    "A1234567890123456".data.all isUpperDigit = true ∧
    (∃ c ∈ "A1234567890123456".data, c.isAlpha = true) ∧
    (∃ c ∈ "A1234567890123456".data, c.isDigit = true) ∧
    ∃ a b, "xA1234567890123456-".data = a ++ "A1234567890123456".data ++ b ∧
      (∀ c, a.getLast? = some c → isUpperDigit c = false) ∧
      (∀ c, b.head? = some c → isUpperDigit c = false) :=
  extract_all_vins_shape "xA1234567890123456-".data "A1234567890123456".data (by decide)

-- ── Rename/dedup lemmas (C7) ────────────────────────────────────────────────

lemma getD_set_ne {α : Type} [Inhabited α] :
    ∀ (l : List α) (j i : Nat) (a : α), i ≠ j →
      (l.set j a).getD i default = l.getD i default := by
  intro l
  induction l with
  | nil => intro j i a _; rfl
  | cons x xs ih =>
      intro j i a hne
      cases j with
      | zero =>
          cases i with
          | zero => exact absurd rfl hne
          | succ i => rfl
      | succ j =>
          cases i with
          | zero => rfl
          | succ i => exact ih j i a (fun hh => hne (congrArg Nat.succ hh))

lemma getD_set_self {α : Type} [Inhabited α] :
    ∀ (l : List α) (i : Nat) (a : α), i < l.length →
      (l.set i a).getD i default = a := by
  intro l
  induction l with
  | nil => intro i a h; exact absurd h (Nat.not_lt_zero i)
  | cons x xs ih =>
      intro i a h
      cases i with
      | zero => rfl
      | succ i => exact ih i a (Nat.lt_of_succ_lt_succ h)

lemma headD_mem {α : Type} {l : List α} (h : l ≠ []) (d : α) : l.headD d ∈ l := by
  cases l with
  | nil => exact absurd rfl h
  | cons x xs => exact List.mem_cons_self x xs

-- ── addToClass invariants ──

/-- Per-class property of a grouping: classes are nonempty and every member
carries the class key. -/
def ClassesOK (key : Nat → String) (m : List (String × List Nat)) : Prop :=
  ∀ p ∈ m, p.2 ≠ [] ∧ ∀ i ∈ p.2, key i = p.1

lemma addToClass_keys (h : String) (idx : Nat) :
    ∀ (m : List (String × List Nat)),
      (addToClass h idx m).map Prod.fst =
        if h ∈ m.map Prod.fst then m.map Prod.fst else m.map Prod.fst ++ [h] := by
  intro m
  induction m with
  | nil => simp [addToClass]
  | cons p rest ih =>
      by_cases hp : p.1 = h
      · rw [addToClass, if_pos hp]
        have hmem : h ∈ (p :: rest).map Prod.fst := by
          rw [List.map_cons, ← hp]; exact List.mem_cons_self _ _
        rw [if_pos hmem]
        simp
      · rw [addToClass, if_neg hp]
        by_cases hmem : h ∈ rest.map Prod.fst
        · have hmem2 : h ∈ (p :: rest).map Prod.fst := by
            rw [List.map_cons]; exact List.mem_cons_of_mem _ hmem
          rw [if_pos hmem2, List.map_cons, ih, if_pos hmem, List.map_cons]
        · have hmem2 : h ∉ (p :: rest).map Prod.fst := by
            rw [List.map_cons, List.mem_cons]
            rintro (hh | hh)
            · exact hp hh.symm
            · exact hmem hh
          rw [if_neg hmem2, List.map_cons, ih, if_neg hmem, List.map_cons, List.cons_append]

lemma addToClass_nodup (h : String) (idx : Nat) (m : List (String × List Nat))
    (hm : (m.map Prod.fst).Nodup) : ((addToClass h idx m).map Prod.fst).Nodup := by
  rw [addToClass_keys]
  by_cases hmem : h ∈ m.map Prod.fst
  · rw [if_pos hmem]; exact hm
  · rw [if_neg hmem]
    simp [List.nodup_append, hm, hmem]

lemma addToClass_classesOK (key : Nat → String) (h : String) (idx : Nat)
    (hidx : key idx = h) :
    ∀ (m : List (String × List Nat)), ClassesOK key m →
      ClassesOK key (addToClass h idx m) := by
  intro m
  induction m with
  | nil =>
      intro _ p hp
      rw [addToClass] at hp
      rcases List.mem_singleton.mp hp with rfl
      refine ⟨by simp, ?_⟩
      intro i hi
      rcases List.mem_singleton.mp hi with rfl
      exact hidx
  | cons q rest ih =>
      intro hok p hp
      by_cases hq : q.1 = h
      · rw [addToClass, if_pos hq] at hp
        rcases List.mem_cons.mp hp with rfl | hp2
        · obtain ⟨hne, hall⟩ := hok q (List.mem_cons_self _ _)
          refine ⟨by simp, ?_⟩
          intro i hi
          rcases List.mem_append.mp hi with hi1 | hi2
          · exact hall i hi1
          · rcases List.mem_singleton.mp hi2 with rfl
            rw [hidx, hq]
        · exact hok p (List.mem_cons_of_mem _ hp2)
      · rw [addToClass, if_neg hq] at hp
        rcases List.mem_cons.mp hp with rfl | hp2
        · exact hok p (List.mem_cons_self _ _)
        · exact ih (fun r hr => hok r (List.mem_cons_of_mem _ hr)) p hp2

lemma addToClass_sizes (h : String) (idx : Nat) :
    ∀ (m : List (String × List Nat)),
      ((addToClass h idx m).map (fun p => p.2.length)).sum =
        (m.map (fun p => p.2.length)).sum + 1 := by
  intro m
  induction m with
  | nil => simp [addToClass]
  | cons p rest ih =>
      by_cases hp : p.1 = h
      · rw [addToClass, if_pos hp]
        simp only [List.map_cons, List.sum_cons, List.length_append, List.length_singleton]
        omega
      · rw [addToClass, if_neg hp]
        simp only [List.map_cons, List.sum_cons, ih]
        omega

lemma addToClass_covers (h : String) (idx : Nat) :
    ∀ (m : List (String × List Nat)) (j : Nat),
      ((∃ p ∈ m, j ∈ p.2) ∨ j = idx) → ∃ p ∈ addToClass h idx m, j ∈ p.2 := by
  intro m
  induction m with
  | nil =>
      intro j hj
      rcases hj with ⟨p, hp, _⟩ | rfl
      · exact absurd hp (List.not_mem_nil p)
      · exact ⟨(h, [j]), List.mem_singleton.mpr rfl, List.mem_singleton.mpr rfl⟩
  | cons q rest ih =>
      intro j hj
      by_cases hq : q.1 = h
      · rw [addToClass, if_pos hq]
        rcases hj with ⟨p, hp, hjp⟩ | rfl
        · rcases List.mem_cons.mp hp with rfl | hp2
          · exact ⟨(p.1, p.2 ++ [idx]), List.mem_cons_self _ _,
              List.mem_append.mpr (Or.inl hjp)⟩
          · exact ⟨p, List.mem_cons_of_mem _ hp2, hjp⟩
        · exact ⟨(q.1, q.2 ++ [j]), List.mem_cons_self _ _,
            List.mem_append.mpr (Or.inr (List.mem_singleton.mpr rfl))⟩
      · rw [addToClass, if_neg hq]
        rcases hj with ⟨p, hp, hjp⟩ | rfl
        · rcases List.mem_cons.mp hp with rfl | hp2
          · exact ⟨p, List.mem_cons_self _ _, hjp⟩
          · obtain ⟨r, hr, hjr⟩ := ih j (Or.inl ⟨p, hp2, hjp⟩)
            exact ⟨r, List.mem_cons_of_mem _ hr, hjr⟩
        · obtain ⟨r, hr, hjr⟩ := ih j (Or.inr rfl)
          exact ⟨r, List.mem_cons_of_mem _ hr, hjr⟩

lemma addToClass_from (h : String) (idx : Nat) :
    ∀ (m : List (String × List Nat)) (p : String × List Nat) (i : Nat),
      p ∈ addToClass h idx m → i ∈ p.2 →
      (∃ q ∈ m, i ∈ q.2) ∨ i = idx := by
  intro m
  induction m with
  | nil =>
      intro p i hp hi
      rw [addToClass] at hp
      rcases List.mem_singleton.mp hp with rfl
      exact Or.inr (List.mem_singleton.mp hi)
  | cons q rest ih =>
      intro p i hp hi
      by_cases hq : q.1 = h
      · rw [addToClass, if_pos hq] at hp
        rcases List.mem_cons.mp hp with rfl | hp2
        · rcases List.mem_append.mp hi with hi1 | hi2
          · exact Or.inl ⟨q, List.mem_cons_self _ _, hi1⟩
          · exact Or.inr (List.mem_singleton.mp hi2)
        · exact Or.inl ⟨p, List.mem_cons_of_mem _ hp2, hi⟩
      · rw [addToClass, if_neg hq] at hp
        rcases List.mem_cons.mp hp with rfl | hp2
        · exact Or.inl ⟨p, List.mem_cons_self _ _, hi⟩
        · rcases ih p i hp2 hi with ⟨r, hr, hir⟩ | rfl
          · exact Or.inl ⟨r, List.mem_cons_of_mem _ hr, hir⟩
          · exact Or.inr rfl

-- ── groupByHash facts ──

/-- The hash key of an index. -/
def hashKey (hash : Pathm → String) (changes : List Change) (i : Nat) : String :=
  hash (changes.getD i default).source

lemma groupFold_inv (key : Nat → String) :
    ∀ (l : List Nat) (m : List (String × List Nat)),
      (m.map Prod.fst).Nodup → ClassesOK key m →
      ((l.foldl (fun m idx => addToClass (key idx) idx m) m).map Prod.fst).Nodup ∧
      ClassesOK key (l.foldl (fun m idx => addToClass (key idx) idx m) m) ∧
      ((l.foldl (fun m idx => addToClass (key idx) idx m) m).map
          (fun p => p.2.length)).sum = (m.map (fun p => p.2.length)).sum + l.length ∧
      (∀ j, ((∃ p ∈ m, j ∈ p.2) ∨ j ∈ l) →
        ∃ p ∈ l.foldl (fun m idx => addToClass (key idx) idx m) m, j ∈ p.2) ∧
      (∀ p ∈ l.foldl (fun m idx => addToClass (key idx) idx m) m, ∀ i ∈ p.2,
        (∃ q ∈ m, i ∈ q.2) ∨ i ∈ l) := by
  intro l
  induction l with
  | nil =>
      intro m hnd hok
      refine ⟨hnd, hok, by simp, ?_, ?_⟩
      · intro j hj
        rcases hj with hj | hj
        · exact hj
        · exact absurd hj (List.not_mem_nil j)
      · intro p hp i hi
        exact Or.inl ⟨p, hp, hi⟩
  | cons x xs ih =>
      intro m hnd hok
      rw [List.foldl_cons]
      obtain ⟨ihnd, ihok, ihsum, ihcov, ihfrom⟩ :=
        ih (addToClass (key x) x m) (addToClass_nodup _ _ _ hnd)
          (addToClass_classesOK key (key x) x rfl m hok)
      refine ⟨ihnd, ihok, ?_, ?_, ?_⟩
      · rw [ihsum, addToClass_sizes]
        simp [Nat.add_assoc, Nat.add_comm 1 xs.length]
      · intro j hj
        apply ihcov
        rcases hj with hj | hj
        · exact Or.inl (addToClass_covers (key x) x m j (Or.inl hj))
        · rcases List.mem_cons.mp hj with hj1 | hj2
          · exact Or.inl (addToClass_covers (key x) x m j (Or.inr hj1))
          · exact Or.inr hj2
      · intro p hp i hi
        rcases ihfrom p hp i hi with ⟨q, hq, hiq⟩ | hi2
        · rcases addToClass_from (key x) x m q i hq hiq with hq2 | rfl
          · exact Or.inl hq2
          · exact Or.inr (List.mem_cons_self _ _)
        · exact Or.inr (List.mem_cons_of_mem _ hi2)

lemma groupByHash_eq_fold (hash : Pathm → String) (changes : List Change)
    (indices : List Nat) :
    groupByHash hash changes indices =
      indices.foldl (fun m idx => addToClass (hashKey hash changes idx) idx m) [] := rfl

lemma groupByHash_facts (hash : Pathm → String) (changes : List Change)
    (indices : List Nat) :
    ((groupByHash hash changes indices).map Prod.fst).Nodup ∧
    ClassesOK (hashKey hash changes) (groupByHash hash changes indices) ∧
    ((groupByHash hash changes indices).map (fun p => p.2.length)).sum = indices.length ∧
    (∀ j, j ∈ indices ↔ ∃ p ∈ groupByHash hash changes indices, j ∈ p.2) := by
  obtain ⟨hnd, hok, hsum, hcov, hfrom⟩ :=
    groupFold_inv (hashKey hash changes) indices [] (by simp) (fun p hp => absurd hp (List.not_mem_nil p))
  rw [groupByHash_eq_fold]
  refine ⟨hnd, hok, by simpa using hsum, ?_⟩
  intro j
  constructor
  · intro hj; exact hcov j (Or.inr hj)
  · intro ⟨p, hp, hjp⟩
    rcases hfrom p hp j hjp with ⟨q, hq, _⟩ | hj
    · exact absurd hq (List.not_mem_nil q)
    · exact hj

lemma groupByHash_heads_pairwise (hash : Pathm → String) (changes : List Change)
    (indices : List Nat) :
    (groupByHash hash changes indices).Pairwise
      (fun p q => p.2.headD 0 ≠ q.2.headD 0) := by
  obtain ⟨hnd, hok, _, _⟩ := groupByHash_facts hash changes indices
  have hpw : (groupByHash hash changes indices).Pairwise (fun p q => p.1 ≠ q.1) :=
    List.pairwise_map.mp hnd
  refine hpw.imp_of_mem ?_
  intro p q hp hq hne heq
  obtain ⟨hne1, hall1⟩ := hok p hp
  obtain ⟨hne2, hall2⟩ := hok q hq
  apply hne
  rw [← hall1 (p.2.headD 0) (headD_mem hne1 0), heq]
  exact hall2 (q.2.headD 0) (headD_mem hne2 0)

-- ── dedupStep fold lemmas ──

lemma dedupFold_counters (B : String) :
    ∀ (l : List (String × List Nat)) (st : DedupSt),
      (l.foldl (dedupStep B) st).remove
          = st.remove ++ (l.map (fun p => p.2.tail)).flatten ∧
      (l.foldl (dedupStep B) st).deduped
          = st.deduped + (l.map (fun p => p.2.tail.length)).sum ∧
      (l.foldl (dedupStep B) st).renamed = st.renamed + l.length ∧
      (l.foldl (dedupStep B) st).counter = st.counter + l.length ∧
      (l.foldl (dedupStep B) st).changes.length = st.changes.length := by
  intro l
  induction l with
  | nil => intro st; refine ⟨by simp, by simp, by simp, by simp, rfl⟩
  | cons p rest ih =>
      intro st
      rw [List.foldl_cons]
      obtain ⟨h1, h2, h3, h4, h5⟩ := ih (dedupStep B st p)
      have e1 : (dedupStep B st p).remove = st.remove ++ p.2.tail := rfl
      have e2 : (dedupStep B st p).deduped = st.deduped + p.2.tail.length := rfl
      have e3 : (dedupStep B st p).renamed = st.renamed + 1 := rfl
      have e4 : (dedupStep B st p).counter = st.counter + 1 := rfl
      have e5 : (dedupStep B st p).changes.length = st.changes.length := by
        show (st.changes.set _ _).length = st.changes.length
        exact List.length_set _ _ _
      refine ⟨?_, ?_, ?_, ?_, ?_⟩
      · rw [h1, e1]; simp [List.append_assoc]
      · rw [h2, e2]; simp only [List.map_cons, List.sum_cons]; omega
      · rw [h3, e3]; simp only [List.length_cons]; omega
      · rw [h4, e4]; simp only [List.length_cons]; omega
      · rw [h5, e5]

lemma dedupFold_untouched (B : String) :
    ∀ (l : List (String × List Nat)) (st : DedupSt) (i : Nat),
      (∀ p ∈ l, i ≠ p.2.headD 0) →
      (l.foldl (dedupStep B) st).changes.getD i default = st.changes.getD i default := by
  intro l
  induction l with
  | nil => intro st i _; rfl
  | cons p rest ih =>
      intro st i hi
      rw [List.foldl_cons, ih (dedupStep B st p) i
        (fun q hq => hi q (List.mem_cons_of_mem _ hq))]
      show (st.changes.set (p.2.headD 0) _).getD i default = st.changes.getD i default
      exact getD_set_ne _ _ _ _ (hi p (List.mem_cons_self _ _))

lemma dedupFold_keeper (B : String) :
    ∀ (l : List (String × List Nat)) (st : DedupSt),
      l.Pairwise (fun p q => p.2.headD 0 ≠ q.2.headD 0) →
      (∀ p ∈ l, p.2.headD 0 < st.changes.length) →
      ∀ k, (hk : k < l.length) →
        (l.foldl (dedupStep B) st).changes.getD ((l.get ⟨k, hk⟩).2.headD 0) default =
          { st.changes.getD ((l.get ⟨k, hk⟩).2.headD 0) default with
            destination :=
              pathmParent (st.changes.getD ((l.get ⟨k, hk⟩).2.headD 0) default).destination
                ++ [B ++ "_" ++ toString (st.counter + k + 1) ++ ".pdf"] } := by
  intro l
  induction l with
  | nil => intro st _ _ k hk; exact absurd hk (Nat.not_lt_zero k)
  | cons p rest ih =>
      intro st hpw hlt k hk
      obtain ⟨hpw1, hpw2⟩ := List.pairwise_cons.mp hpw
      rw [List.foldl_cons]
      cases k with
      | zero =>
          have hget : ((p :: rest).get ⟨0, hk⟩) = p := rfl
          rw [hget, dedupFold_untouched B rest (dedupStep B st p) _
            (fun q hq => hpw1 q hq)]
          show (st.changes.set (p.2.headD 0) _).getD (p.2.headD 0) default = _
          rw [getD_set_self _ _ _ (hlt p (List.mem_cons_self _ _))]
      | succ k =>
          have hk2 : k < rest.length := Nat.lt_of_succ_lt_succ hk
          have hget : ((p :: rest).get ⟨k + 1, hk⟩) = rest.get ⟨k, hk2⟩ := rfl
          rw [hget]
          have hstl : (dedupStep B st p).changes.length = st.changes.length := by
            show (st.changes.set _ _).length = st.changes.length
            exact List.length_set _ _ _
          rw [ih (dedupStep B st p) hpw2
            (fun q hq => by rw [hstl]; exact hlt q (List.mem_cons_of_mem _ hq)) k hk2]
          have hne : (rest.get ⟨k, hk2⟩).2.headD 0 ≠ p.2.headD 0 :=
            fun hh => hpw1 (rest.get ⟨k, hk2⟩) (List.get_mem rest k hk2) hh.symm
          have hch : (dedupStep B st p).changes.getD ((rest.get ⟨k, hk2⟩).2.headD 0) default
              = st.changes.getD ((rest.get ⟨k, hk2⟩).2.headD 0) default := by
            show (st.changes.set (p.2.headD 0) _).getD _ default = _
            exact getD_set_ne _ _ _ _ hne
          rw [hch]
          have hc : (dedupStep B st p).counter = st.counter + 1 := rfl
          rw [hc]
          have : st.counter + 1 + k + 1 = st.counter + (k + 1) + 1 := by omega
          rw [this]

lemma sum_tail_lengths :
    ∀ (l : List (String × List Nat)), (∀ p ∈ l, p.2 ≠ []) →
      (l.map (fun p => p.2.tail.length)).sum + l.length
        = (l.map (fun p => p.2.length)).sum := by
  intro l
  induction l with
  | nil => intro _; simp
  | cons p rest ih =>
      intro hne
      have hlen : p.2.tail.length + 1 = p.2.length := by
        cases hq : p.2 with
        | nil => exact absurd hq (hne p (List.mem_cons_self _ _))
        | cons a t => simp
      have := ih (fun q hq => hne q (List.mem_cons_of_mem _ hq))
      simp only [List.map_cons, List.sum_cons, List.length_cons]
      omega

-- ── the claim theorem ──

/-- **C7**: for one rename/dedup group with base name `B`: the duplicates
dropped are exactly the non-first members of each hash class (so `deduped`
grows by `|indices| - #classes` and every index is dropped or a class
keeper), every non-keeper ledger entry is untouched, and the keeper of the
`k`-th hash class (first-occurrence order) keeps its entry with the
destination basename renamed to `B.pdf` when all files share one hash, and
to `B_{k+1}.pdf` when there are several distinct hashes. -/
theorem rename_dedup_group_spec (hash : Pathm → String) (changes : List Change)
    (indices : List Nat) (B : String) (d r : Nat)
    (orig : List ((String × String) × String))
    (hne : indices ≠ [])
    (hlt : ∀ i ∈ indices, i < changes.length) :
    (rename_dedup_group hash changes indices B d r orig).deduped
        = d + (indices.length - (groupByHash hash changes indices).length) ∧
    (rename_dedup_group hash changes indices B d r orig).renamed
        = r + (groupByHash hash changes indices).length ∧
    (rename_dedup_group hash changes indices B d r orig).remove
        = ((groupByHash hash changes indices).map (fun p => p.2.tail)).flatten ∧
    (∀ i ∈ (rename_dedup_group hash changes indices B d r orig).remove, i ∈ indices) ∧
    (∀ i ∈ indices,
        i ∈ (rename_dedup_group hash changes indices B d r orig).remove ∨
        ∃ p ∈ groupByHash hash changes indices, i = p.2.headD 0) ∧
    (∀ i, (∀ p ∈ groupByHash hash changes indices, i ≠ p.2.headD 0) →
        (rename_dedup_group hash changes indices B d r orig).changes.getD i default
          = changes.getD i default) ∧
    (∀ k, (hk : k < (groupByHash hash changes indices).length) →
        (rename_dedup_group hash changes indices B d r orig).changes.getD
            (((groupByHash hash changes indices).get ⟨k, hk⟩).2.headD 0) default =
          { changes.getD (((groupByHash hash changes indices).get ⟨k, hk⟩).2.headD 0)
              default with
            destination :=
              pathmParent ((changes.getD
                (((groupByHash hash changes indices).get ⟨k, hk⟩).2.headD 0)
                  default).destination) ++
                [if (groupByHash hash changes indices).length = 1 then B ++ ".pdf"
                 else B ++ "_" ++ toString (k + 1) ++ ".pdf"] }) := by
  obtain ⟨hnd, hok, hsum, hmem⟩ := groupByHash_facts hash changes indices
  have hpw := groupByHash_heads_pairwise hash changes indices
  have hclne : ∀ p ∈ groupByHash hash changes indices, p.2 ≠ [] :=
    fun p hp => (hok p hp).1
  have hheadmem : ∀ p ∈ groupByHash hash changes indices, p.2.headD 0 ∈ indices :=
    fun p hp => (hmem _).mpr ⟨p, hp, headD_mem (hclne p hp) 0⟩
  have hheadlt : ∀ p ∈ groupByHash hash changes indices, p.2.headD 0 < changes.length :=
    fun p hp => hlt _ (hheadmem p hp)
  have htails : ((groupByHash hash changes indices).map (fun p => p.2.tail.length)).sum
      + (groupByHash hash changes indices).length = indices.length := by
    rw [sum_tail_lengths _ hclne]; exact hsum
  by_cases h1 : (groupByHash hash changes indices).length = 1
  · -- single hash class
    obtain ⟨p, hp⟩ := List.length_eq_one.mp h1
    have hres : rename_dedup_group hash changes indices B d r orig =
        ⟨p.2.tail,
         (renameKeeper changes (p.2.headD 0) (B ++ ".pdf") orig).1,
         d + p.2.tail.length, r + 1,
         (renameKeeper changes (p.2.headD 0) (B ++ ".pdf") orig).2, 0⟩ := by
      simp only [rename_dedup_group, if_neg hne, hp]
      rfl
    have hpmem : p ∈ groupByHash hash changes indices := by
      rw [hp]; exact List.mem_singleton.mpr rfl
    have hpone : ∀ q ∈ groupByHash hash changes indices, q = p := by
      intro q hq
      rw [hp] at hq
      exact List.mem_singleton.mp hq
    have hsump : p.2.length = indices.length := by
      rw [hp] at hsum
      simpa using hsum
    have hpne : p.2 ≠ [] := hclne p hpmem
    have htl : p.2.tail.length = indices.length - 1 := by
      have : p.2.tail.length + 1 = p.2.length := by
        cases hq : p.2 with
        | nil => exact absurd hq hpne
        | cons a t => simp
      omega
    refine ⟨?_, ?_, ?_, ?_, ?_, ?_, ?_⟩
    · rw [hres, h1]
      show d + p.2.tail.length = d + (indices.length - 1)
      rw [htl]
    · rw [hres, h1]
    · rw [hres, hp]
      show p.2.tail = [p.2.tail].flatten
      simp
    · rw [hres]
      intro i hi
      show i ∈ indices
      exact (hmem i).mpr ⟨p, hpmem, List.mem_of_mem_tail hi⟩
    · intro i hi
      obtain ⟨q, hq, hiq⟩ := (hmem i).mp hi
      rcases hpone q hq with rfl
      cases hq2 : q.2 with
      | nil => rw [hq2] at hiq; exact absurd hiq (List.not_mem_nil i)
      | cons a t =>
          rw [hq2] at hiq
          rcases List.mem_cons.mp hiq with rfl | hit
          · right
            exact ⟨q, hq, by rw [hq2]; rfl⟩
          · left
            rw [hres]
            show i ∈ q.2.tail
            rw [hq2]
            exact hit
    · intro i hi
      rw [hres]
      show (changes.set (p.2.headD 0) _).getD i default = changes.getD i default
      exact getD_set_ne _ _ _ _ (hi p hpmem)
    · intro k hk
      have hk0 : k = 0 := by omega
      subst hk0
      have hgetp : (groupByHash hash changes indices).get ⟨0, hk⟩ = p := by
        rw [List.get_of_eq hp]
        rfl
      rw [hres, hgetp, if_pos h1]
      show (changes.set (p.2.headD 0) _).getD (p.2.headD 0) default = _
      exact getD_set_self _ _ _ (hheadlt p hpmem)
  · -- several hash classes
    have hres : rename_dedup_group hash changes indices B d r orig =
        (groupByHash hash changes indices).foldl (dedupStep B)
          ⟨[], changes, d, r, orig, 0⟩ := by
      simp only [rename_dedup_group, if_neg hne, if_neg h1]
    obtain ⟨hc1, hc2, hc3, hc4, hc5⟩ :=
      dedupFold_counters B (groupByHash hash changes indices) ⟨[], changes, d, r, orig, 0⟩
    refine ⟨?_, ?_, ?_, ?_, ?_, ?_, ?_⟩
    · rw [hres, hc2]
      show d + _ = _
      omega
    · rw [hres, hc3]
    · rw [hres, hc1]
      simp
    · rw [hres, hc1]
      intro i hi
      simp only [List.nil_append] at hi
      obtain ⟨t, ht, hit⟩ := List.mem_flatten.mp hi
      obtain ⟨q, hq, hqt⟩ := List.mem_map.mp ht
      exact (hmem i).mpr ⟨q, hq, List.mem_of_mem_tail (by rw [hqt]; exact hit)⟩
    · intro i hi
      obtain ⟨q, hq, hiq⟩ := (hmem i).mp hi
      cases hq2 : q.2 with
      | nil => rw [hq2] at hiq; exact absurd hiq (List.not_mem_nil i)
      | cons a t =>
          rw [hq2] at hiq
          rcases List.mem_cons.mp hiq with rfl | hit
          · right
            exact ⟨q, hq, by rw [hq2]; rfl⟩
          · left
            rw [hres, hc1]
            simp only [List.nil_append]
            refine List.mem_flatten.mpr ⟨q.2.tail, List.mem_map.mpr ⟨q, hq, rfl⟩, ?_⟩
            rw [hq2]
            exact hit
    · intro i hi
      rw [hres]
      exact dedupFold_untouched B _ _ i hi
    · intro k hk
      rw [hres, if_neg h1]
      have := dedupFold_keeper B (groupByHash hash changes indices)
        ⟨[], changes, d, r, orig, 0⟩ hpw hheadlt k hk
      simpa using this

-- witness inputs
def w7hash : Pathm → String := pathmName

def w7changes : List Change :=
  [⟨"copy_file", ["s", "a.pdf"], ["o", "V", "x.pdf"], "", "", "V", "planned"⟩,
   ⟨"copy_file", ["t", "a.pdf"], ["o", "V", "y.pdf"], "", "", "V", "planned"⟩,
   ⟨"copy_file", ["s", "b.pdf"], ["o", "V", "z.pdf"], "", "", "V", "planned"⟩]

theorem rename_dedup_group_spec_witness :
    (([0, 1, 2] : List Nat) ≠ [] ∧ ∀ i ∈ ([0, 1, 2] : List Nat), i < w7changes.length) ∧
    (rename_dedup_group w7hash w7changes [0, 1, 2] "cc" 0 0 []).deduped
      = 0 + (([0, 1, 2] : List Nat).length - (groupByHash w7hash w7changes [0, 1, 2]).length) :=
  ⟨⟨by decide, by decide⟩,
   (rename_dedup_group_spec w7hash w7changes [0, 1, 2] "cc" 0 0 []
     (by decide) (by decide)).1⟩

example : (rename_dedup_group w7hash w7changes [0, 1, 2] "cc" 0 0 []).deduped = 1 := by decide
example : (rename_dedup_group w7hash w7changes [0, 1, 2] "cc" 0 0 []).remove = [1] := by decide
example : (groupByHash w7hash w7changes [0, 1, 2]).length = 2 := by decide

-- ── Cross-copy cap lemmas and gap-fill scenario (C6) ───────────────────────

lemma ledger_add_changes_cases (l : Ledger) (a : String) (src dst : Pathm)
    (rn pf vin : String) :
    (l.add a src dst rn pf vin).changes = l.changes ∨
    (l.add a src dst rn pf vin).changes
      = l.changes ++ [⟨a, src, dst, rn, pf, vin, "planned"⟩] := by
  simp only [Ledger.add]
  by_cases ha : a = "copy_file"
  · rw [if_pos ha]
    cases halook : alook dst l.plannedDests with
    | none => right; rfl
    | some src0 =>
        dsimp only
        by_cases hs : src0 = src
        · rw [if_pos hs]; left; rfl
        · rw [if_neg hs]; right; rfl
  · rw [if_neg ha]; right; rfl

lemma ledger_add_warnings (l : Ledger) (a : String) (src dst : Pathm)
    (rn pf vin : String) :
    (l.add a src dst rn pf vin).warnings = l.warnings := by
  simp only [Ledger.add]
  by_cases ha : a = "copy_file"
  · rw [if_pos ha]
    cases halook : alook dst l.plannedDests with
    | none => rfl
    | some src0 =>
        dsimp only
        by_cases hs : src0 = src
        · rw [if_pos hs]
        · rw [if_neg hs]
  · rw [if_neg ha]

/-- Every change in the state's ledger either predates the pass or names a
source PDF whose content-VIN set is within the cross-copy cap. -/
def CrossInv (pdfCache : Pathm → List String) (base : List Change) (st : CrossSt) : Prop :=
  ∀ c ∈ st.ledger.changes, c ∈ base ∨ (pdfCache c.source).length ≤ MAX_CROSS_COPY_VINS

lemma crossVinStep_inv (pdfCache : Pathm → List String) (base : List Change)
    (vp : List (String × Pathm)) (c : Change) (st : CrossSt) (vin : String)
    (hc : (pdfCache c.source).length ≤ MAX_CROSS_COPY_VINS)
    (hst : CrossInv pdfCache base st) :
    CrossInv pdfCache base (crossVinStep vp c st vin) := by
  unfold crossVinStep
  by_cases hmem : (c.source, vin) ∈ st.already
  · rw [if_pos hmem]; exact hst
  · rw [if_neg hmem]
    cases halook : alook vin vp with
    | none => exact hst
    | some out_part =>
        intro d hd
        have hd2 : d ∈ (st.ledger.add "copy_file" c.source (out_part ++ [vin, pathmName c.source])
            "PDF content VIN cross-copy" c.parent_folder vin).changes := hd
        rcases ledger_add_changes_cases st.ledger "copy_file" c.source
            (out_part ++ [vin, pathmName c.source]) "PDF content VIN cross-copy"
            c.parent_folder vin with hcase | hcase
        · exact hst d (by rw [hcase] at hd2; exact hd2)
        · rw [hcase] at hd2
          rcases List.mem_append.mp hd2 with h | h
          · exact hst d h
          · right
            rw [List.mem_singleton.mp h]
            exact hc

lemma crossVinFold_inv (pdfCache : Pathm → List String) (base : List Change)
    (vp : List (String × Pathm)) (c : Change)
    (hc : (pdfCache c.source).length ≤ MAX_CROSS_COPY_VINS) :
    ∀ (vins : List String) (st : CrossSt), CrossInv pdfCache base st →
      CrossInv pdfCache base (vins.foldl (crossVinStep vp c) st) := by
  intro vins
  induction vins with
  | nil => intro st hst; exact hst
  | cons v vs ih =>
      intro st hst
      rw [List.foldl_cons]
      exact ih _ (crossVinStep_inv pdfCache base vp c st v hc hst)

lemma crossChangeStep_inv (pdfCache : Pathm → List String) (base : List Change)
    (vp : List (String × Pathm)) (st : CrossSt) (c : Change)
    (hst : CrossInv pdfCache base st) :
    CrossInv pdfCache base (crossChangeStep pdfCache vp st c) := by
  unfold crossChangeStep
  by_cases h1 : c.action ≠ "copy_file"
  · rw [if_pos h1]; exact hst
  · rw [if_neg h1]
    by_cases h2 : strLower (pathSuffix (pathmName c.source)) ≠ ".pdf"
    · rw [if_pos h2]; exact hst
    · rw [if_neg h2]
      by_cases h3 : pdfCache c.source = []
      · rw [if_pos h3]; exact hst
      · rw [if_neg h3]
        by_cases h4 : MAX_CROSS_COPY_VINS < (pdfCache c.source).length
        · rw [if_pos h4]
          intro d hd
          exact hst d hd
        · rw [if_neg h4]
          exact crossVinFold_inv pdfCache base vp c (Nat.le_of_not_lt h4) _
            { st with pdfs_checked := st.pdfs_checked + 1 } hst

lemma crossFold_inv (pdfCache : Pathm → List String) (base : List Change)
    (vp : List (String × Pathm)) :
    ∀ (cs : List Change) (st : CrossSt), CrossInv pdfCache base st →
      CrossInv pdfCache base (cs.foldl (crossChangeStep pdfCache vp) st) := by
  intro cs
  induction cs with
  | nil => intro st hst; exact hst
  | cons c rest ih =>
      intro st hst
      rw [List.foldl_cons]
      exact ih _ (crossChangeStep_inv pdfCache base vp st c hst)

lemma crossVinFold_warnings (vp : List (String × Pathm)) (c : Change) :
    ∀ (vins : List String) (st : CrossSt),
      (vins.foldl (crossVinStep vp c) st).ledger.warnings = st.ledger.warnings := by
  intro vins
  induction vins with
  | nil => intro st; rfl
  | cons v vs ih =>
      intro st
      rw [List.foldl_cons, ih]
      unfold crossVinStep
      by_cases hmem : (c.source, v) ∈ st.already
      · rw [if_pos hmem]
      · rw [if_neg hmem]
        cases halook : alook v vp with
        | none => rfl
        | some out_part => exact ledger_add_warnings st.ledger _ _ _ _ _ _

lemma crossChangeStep_warn_mono (pdfCache : Pathm → List String)
    (vp : List (String × Pathm)) (st : CrossSt) (c : Change) (m : String)
    (hm : m ∈ st.ledger.warnings) :
    m ∈ (crossChangeStep pdfCache vp st c).ledger.warnings := by
  unfold crossChangeStep
  by_cases h1 : c.action ≠ "copy_file"
  · rw [if_pos h1]; exact hm
  · rw [if_neg h1]
    by_cases h2 : strLower (pathSuffix (pathmName c.source)) ≠ ".pdf"
    · rw [if_pos h2]; exact hm
    · rw [if_neg h2]
      by_cases h3 : pdfCache c.source = []
      · rw [if_pos h3]; exact hm
      · rw [if_neg h3]
        by_cases h4 : MAX_CROSS_COPY_VINS < (pdfCache c.source).length
        · rw [if_pos h4]
          show m ∈ _ ++ [crossCopyWarnMsg c.source (pdfCache c.source).length]
          exact List.mem_append.mpr (Or.inl hm)
        · rw [if_neg h4, crossVinFold_warnings]
          exact hm

lemma crossFold_warn_mono (pdfCache : Pathm → List String)
    (vp : List (String × Pathm)) :
    ∀ (cs : List Change) (st : CrossSt) (m : String), m ∈ st.ledger.warnings →
      m ∈ (cs.foldl (crossChangeStep pdfCache vp) st).ledger.warnings := by
  intro cs
  induction cs with
  | nil => intro st m hm; exact hm
  | cons c rest ih =>
      intro st m hm
      rw [List.foldl_cons]
      exact ih _ m (crossChangeStep_warn_mono pdfCache vp st c m hm)

lemma crossChangeStep_emits (pdfCache : Pathm → List String)
    (vp : List (String × Pathm)) (st : CrossSt) (c : Change)
    (hact : c.action = "copy_file")
    (hsfx : strLower (pathSuffix (pathmName c.source)) = ".pdf")
    (hcap : MAX_CROSS_COPY_VINS < (pdfCache c.source).length) :
    crossCopyWarnMsg c.source (pdfCache c.source).length ∈
      (crossChangeStep pdfCache vp st c).ledger.warnings := by
  have hnonempty : ¬ pdfCache c.source = [] := by
    intro h
    rw [h] at hcap
    exact absurd hcap (by decide)
  unfold crossChangeStep
  rw [if_neg (not_not_intro hact), if_neg (not_not_intro hsfx), if_neg hnonempty, if_pos hcap]
  show _ ∈ _ ++ [crossCopyWarnMsg c.source (pdfCache c.source).length]
  exact List.mem_append.mpr (Or.inr (List.mem_singleton.mpr rfl))


/-- A concrete planning scenario: `exMasterSrc` is a planned PDF whose
content-VIN set has 101 elements (over the 100-VIN cap) and whose content
categories include `Contract Cadru`. -/
def exRoot : Pathm := ["OUT"]

def exVins : List String := (List.range 101).map (fun i => "V" ++ toString i)

def exSeedSrc : Pathm := ["SIN", "A", "seed.pdf"]

def exMasterSrc : Pathm := ["SIN", "B", "master.pdf"]

def exCache : Pathm → List String := fun p => if p = exMasterSrc then exVins else []

def exCats : Pathm → List String :=
  fun p => if p = exMasterSrc then ["Contract Cadru"] else []

def exLedger : Ledger :=
  (Ledger.empty.add "copy_file" exSeedSrc ["OUT", "PART", "V0", "seed.pdf"] "r" "" "V0").add
    "copy_file" exMasterSrc ["OUT", "PART", "V1", "master.pdf"] "r" "" "V1"

/-- **C6**: a planned PDF whose content-VIN set exceeds
`MAX_CROSS_COPY_VINS = 100` gets no cross-copies from
`plan_pdf_cross_copies` (every entry of the resulting ledger with that
source already stood in the input ledger) and a warning is recorded for
it; yet `plan_contract_gap_fill` has no such cap: in the concrete
scenario the 101-VIN PDF `exMasterSrc` is skipped (and warned about) by
the cross-copy pass but still planned by the gap-fill pass to fill V0's
missing `Contract Cadru`. -/
theorem cross_copy_cap_gap_fill_exempt (pdfCache : Pathm → List String)
    (ledger : Ledger) (output_root : Pathm) (p : Pathm)
    (hcap : MAX_CROSS_COPY_VINS < (pdfCache p).length) :
    (∀ c ∈ (plan_pdf_cross_copies pdfCache ledger output_root).ledger.changes,
        c.source = p → c ∈ ledger.changes) ∧
    (∀ c ∈ ledger.changes, c.source = p → c.action = "copy_file" →
        strLower (pathSuffix (pathmName c.source)) = ".pdf" →
        crossCopyWarnMsg p (pdfCache p).length ∈
          (plan_pdf_cross_copies pdfCache ledger output_root).ledger.warnings) ∧
    (MAX_CROSS_COPY_VINS < (exCache exMasterSrc).length ∧
     (plan_pdf_cross_copies exCache exLedger exRoot).ledger.changes = exLedger.changes ∧
     (plan_pdf_cross_copies exCache exLedger exRoot).skipped_too_many = 1 ∧
     crossCopyWarnMsg exMasterSrc (exCache exMasterSrc).length ∈
       (plan_pdf_cross_copies exCache exLedger exRoot).ledger.warnings ∧
     (plan_contract_gap_fill exCache exCats exLedger exRoot).1.changes =
       exLedger.changes ++ [⟨"copy_file", exMasterSrc, ["OUT", "PART", "V0", "master.pdf"],
         "Gap-fill: Contract Cadru from PDF content", "", "V0", "planned"⟩] ∧
     (plan_contract_gap_fill exCache exCats exLedger exRoot).2.1 = 1) := by
  refine ⟨?_, ?_, by decide, by decide, by decide, by decide, by decide, by decide⟩
  · intro c hc hsrc
    simp only [plan_pdf_cross_copies] at hc
    have hinv := crossFold_inv pdfCache ledger.changes _ ledger.changes _
      (fun d hd => Or.inl hd) c hc
    rcases hinv with h | h
    · exact h
    · rw [hsrc] at h
      omega
  · intro c hc hsrc hact hsfx
    obtain ⟨l₁, l₂, hsplit⟩ := List.append_of_mem hc
    simp only [plan_pdf_cross_copies]
    rw [hsplit, List.foldl_append, List.foldl_cons]
    apply crossFold_warn_mono
    rw [← hsrc]
    exact crossChangeStep_emits pdfCache _ _ c hact hsfx (by rw [hsrc]; exact hcap)

theorem cross_copy_cap_gap_fill_exempt_witness :
    MAX_CROSS_COPY_VINS < (exCache exMasterSrc).length ∧
    (∀ c ∈ (plan_pdf_cross_copies exCache exLedger exRoot).ledger.changes,
        c.source = exMasterSrc → c ∈ exLedger.changes) :=
  ⟨by decide,
   (cross_copy_cap_gap_fill_exempt exCache exLedger exRoot exMasterSrc (by decide)).1⟩

end ReorganizeSin
